import Mathlib

/-!
Verification of the timeseries plotting core of `foxglove-studio`.

This file gives a shallow embedding, over `ℚ`, of:

* the two downsampling algorithms of
  `packages/studio-base/src/components/TimeBasedChart/downsample.ts`
  (`downsampleTimeseries`, `downsampleScatter`);
* the per-series buffer store and its `updateData` actions from
  `TimeseriesDatasetsBuilderImpl`
  (`reset-full`, `reset-current`, `append-full`, `append-current`),
  together with the data-assembly and aliased index-rewriting performed by
  `getViewportDatasets` and the assembly performed by `getCsvData`;
* `panels/Plot/BlockTopicCursor.ts`.

JavaScript numbers are modelled as rationals; `Math.trunc` / `Math.round`
are modelled exactly on rationals.  Object identity (used by the block
cursor's reset detection) is modelled by tagging payloads with a numeric
identity.  Mutation of shared datum objects (the `.index` bookkeeping
field written by `getViewportDatasets` through the aliases captured by
`Array.slice`) is modelled by an explicit store-to-store function.
-/

namespace Plot

/-- Model of JavaScript `Math.trunc` on rationals: rounds toward zero.
(`-⌊-q⌋` is the ceiling of `q`; written via `⌊·⌋` so that `norm_num`
can evaluate concrete instances.) -/
def jsTrunc (q : ℚ) : ℤ := if 0 ≤ q then ⌊q⌋ else -⌊-q⌋

/-- Model of JavaScript `Math.round` on rationals: `⌊q + 1/2⌋`
(JS rounds half-way cases toward `+∞`). -/
def jsRound (q : ℚ) : ℤ := ⌊q + 1/2⌋

/-! ### `downsample.ts` data model -/

/-- `Bounds1D` from `TimeBasedChart/types`. -/
structure Bounds1D where
  min : ℚ
  max : ℚ
deriving DecidableEq

/-- The `View` argument of the downsamplers: pixel size plus x/y bounds. -/
structure DsView where
  width : ℚ
  height : ℚ
  boundsX : Bounds1D
  boundsY : Bounds1D
deriving DecidableEq

/-- One `Point` yielded by the dataset iterator of `downsample.ts`:
coordinates, the original index, and an optional label. -/
structure DsPoint where
  x : ℚ
  y : ℚ
  index : ℕ
  label : Option String
deriving DecidableEq

/-- The `IntervalItem` record tracked by `downsampleTimeseries`. -/
structure IntervalItem where
  xPixel : ℤ
  yPixel : ℤ
  label : Option String
  index : ℕ
deriving DecidableEq

/-- Loop state of `downsampleTimeseries`: output indices so far, the four
interval trackers and the `firstPastBounds` slot. -/
structure DsState where
  downsampled : List ℕ
  intFirst : Option IntervalItem
  intLast : Option IntervalItem
  intMin : Option IntervalItem
  intMax : Option IntervalItem
  firstPastBounds : Option ℕ
deriving DecidableEq

def initDsState : DsState := ⟨[], none, none, none, none, none⟩

/-- Where a datum falls relative to the extended buffer window, together
with its pixel cell when in the window.  This caches the only rational
computations of the loop body (`datum.x < minX`, `datum.x > maxX`,
`Math.trunc(datum.x * pixelPerXValue)`, `Math.trunc(datum.y * pixelPerYValue)`)
so the remaining loop logic is arithmetic-free. -/
inductive PixKind where
  | below
  | above
  | inWin (xPixel yPixel : ℤ)
deriving DecidableEq

/-- Classification of one datum by the loop of `downsampleTimeseries`. -/
def classify (ppx ppy minX maxX : ℚ) (p : DsPoint) : PixKind :=
  if p.x < minX then .below
  else if maxX < p.x then .above
  else .inWin (jsTrunc (p.x * ppx)) (jsTrunc (p.y * ppy))

/-- The three conditional pushes performed when an interval is closed
(and again after the loop): `min` if its y-pixel differs from both the
interval's first and last, `max` likewise, `last` if it differs from
first.  `intFirst?.yPixel` being `undefined` compares unequal to any
number in JS (`!==`), which the `Option ℤ` comparison mirrors. -/
def flushPushes (s : DsState) : List ℕ :=
  (match s.intMin with
   | none => []
   | some m =>
     if s.intFirst.map IntervalItem.yPixel ≠ some m.yPixel ∧
        s.intLast.map IntervalItem.yPixel ≠ some m.yPixel then [m.index] else []) ++
  (match s.intMax with
   | none => []
   | some m =>
     if s.intFirst.map IntervalItem.yPixel ≠ some m.yPixel ∧
        s.intLast.map IntervalItem.yPixel ≠ some m.yPixel then [m.index] else []) ++
  (match s.intLast with
   | none => []
   | some l => if s.intFirst.map IntervalItem.yPixel ≠ some l.yPixel then [l.index] else [])

/-- The second disjunct of the new-interval test:
`intLast?.label != undefined && intLast.label !== datum.label`. -/
def labelBreak (s : DsState) (lbl : Option String) : Bool :=
  match s.intLast with
  | some l => decide (l.label ≠ none) && decide (l.label ≠ lbl)
  | none => false

/-- Arithmetic-free part of the `downsampleTimeseries` loop body, applied
to the classification of the datum. -/
def stepK (s : DsState) (k : PixKind) (idx : ℕ) (lbl : Option String) : DsState :=
  match k with
  | .below =>
    -- the first point before our bounds always occupies output position 0
    { s with downsampled :=
        match s.downsampled with
        | [] => [idx]
        | _ :: rest => idx :: rest }
  | .above =>
    { s with firstPastBounds := some idx }
  | .inWin x y =>
    if s.intFirst.map IntervalItem.xPixel ≠ some x ∨ labelBreak s lbl = true then
      -- interval ended: flush min/max/last of the previous interval, then
      -- unconditionally push the first datum of the new interval
      { downsampled := s.downsampled ++ flushPushes s ++ [idx]
        intFirst := some ⟨x, y, lbl, idx⟩
        intLast := some ⟨x, y, lbl, idx⟩
        intMin := some ⟨x, y, lbl, idx⟩
        intMax := some ⟨x, y, lbl, idx⟩
        firstPastBounds := s.firstPastBounds }
    else
      -- same interval: update last (xPixel/yPixel only; the source does not
      -- update `index`/`label` of `intLast` once created) and min/max
      { s with
        intLast := some (match s.intLast with
          | none => ⟨x, y, lbl, idx⟩
          | some l => { l with xPixel := x, yPixel := y })
        intMin := match s.intMin with
          | none => none
          | some m => if y < m.yPixel then some { m with yPixel := y, index := idx } else some m
        intMax := match s.intMax with
          | none => none
          | some m => if m.yPixel < y then some { m with yPixel := y, index := idx } else some m }

/-- One iteration of the `downsampleTimeseries` loop body for a datum `p`.
`ppx`, `ppy` are the pixel-per-value scales, `minX`/`maxX` the extended
buffer window. -/
def dsStep (ppx ppy minX maxX : ℚ) (s : DsState) (p : DsPoint) : DsState :=
  stepK s (classify ppx ppy minX maxX p) p.index p.label

/-- The `for` loop of `downsampleTimeseries` over the point sequence. -/
def dsRun (ppx ppy minX maxX : ℚ) (s : DsState) : List DsPoint → DsState
  | [] => s
  | p :: rest => dsRun ppx ppy minX maxX (dsStep ppx ppy minX maxX s p) rest

/-- Post-loop phase of `downsampleTimeseries`: final interval flush, then
the `firstPastBounds` push (guarded by JS truthiness, so an index of 0 is
not pushed). -/
def dsFinish (s : DsState) : List ℕ :=
  let out := s.downsampled ++ flushPushes s
  match s.firstPastBounds with
  | some i => if i ≠ 0 then out ++ [i] else out
  | none => out

def ppxOf (v : DsView) : ℚ := v.width / (v.boundsX.max - v.boundsX.min)

def ppyOf (v : DsView) : ℚ := v.height / (v.boundsY.max - v.boundsY.min)

def minXOf (v : DsView) : ℚ := v.boundsX.min - (v.boundsX.max - v.boundsX.min) * (1/2)

def maxXOf (v : DsView) : ℚ := v.boundsX.max + (v.boundsX.max - v.boundsX.min) * (1/2)

/-- `downsampleTimeseries(iterate, dataset, view)` of `downsample.ts`:
interval-based downsampling of an x-sorted point list, returning indices
into the original sequence. -/
def downsampleTimeseries (points : List DsPoint) (v : DsView) : List ℕ :=
  dsFinish (dsRun (ppxOf v) (ppyOf v) (minXOf v) (maxXOf v) initDsState points)

/-- Arithmetic-free loop runner on pre-classified data (used to evaluate
the model on concrete inputs). -/
def pixRun (s : DsState) : List (PixKind × ℕ × Option String) → DsState
  | [] => s
  | (k, idx, lbl) :: rest => pixRun (stepK s k idx lbl) rest

/-! ### `downsampleScatter` -/

/-- Loop state of `downsampleScatter`: output indices and the set of pixel
cell locators already seen (the JS sparse array keyed by
`y * pixelPerRow + x`, which can be any rational since `pixelPerRow` is
the viewport width). -/
structure ScState where
  downsampled : List ℕ
  sparse : List ℚ
deriving DecidableEq

/-- Classification of one datum by the `downsampleScatter` loop: `none`
for an x-out-of-bounds datum (dropped), otherwise its cell locator. -/
def scClassify (ppx ppy width bxMin bxMax : ℚ) (p : DsPoint) : Option ℚ :=
  if bxMax < p.x ∨ p.x < bxMin then none
  else some ((jsRound (p.y * ppy) : ℚ) * width + (jsRound (p.x * ppx) : ℚ))

/-- Arithmetic-free part of the `downsampleScatter` loop body. -/
def scStepK (s : ScState) (loc : Option ℚ) (idx : ℕ) : ScState :=
  match loc with
  | none => s
  | some locator =>
    if locator ∈ s.sparse then s
    else { downsampled := s.downsampled ++ [idx], sparse := locator :: s.sparse }

/-- One iteration of the `downsampleScatter` loop body. -/
def scStep (ppx ppy width bxMin bxMax : ℚ) (s : ScState) (p : DsPoint) : ScState :=
  scStepK s (scClassify ppx ppy width bxMin bxMax p) p.index

/-- The `for` loop of `downsampleScatter`. -/
def scRun (ppx ppy width bxMin bxMax : ℚ) (s : ScState) : List DsPoint → ScState
  | [] => s
  | p :: rest => scRun ppx ppy width bxMin bxMax (scStep ppx ppy width bxMin bxMax s p) rest

/-- `downsampleScatter(iterate, dataset, view)` of `downsample.ts`: keeps
the first point seen per occupied pixel cell, dropping x-out-of-bounds
points outright. -/
def downsampleScatter (points : List DsPoint) (v : DsView) : List ℕ :=
  (scRun (ppxOf v) (ppyOf v) v.width v.boundsX.min v.boundsX.max ⟨[], []⟩ points).downsampled

/-- Locator-level loop runner for `downsampleScatter` on pre-classified
data. -/
def scPixRun (s : ScState) : List (Option ℚ × ℕ) → ScState
  | [] => s
  | (loc, idx) :: rest => scPixRun (scStepK s loc idx) rest

/-! ### `TimeseriesDatasetsBuilderImpl`: series store and `updateData` -/

/-- `Time` from `@foxglove/studio` (`{sec, nsec}`). -/
structure Time where
  sec : ℤ
  nsec : ℤ
deriving DecidableEq

/-- `DataItem`: one incoming point handed to the builder. -/
structure DataItem where
  x : ℚ
  y : ℚ
  receiveTime : Time
  headerStamp : Option Time
deriving DecidableEq

/-- `FullDatum`: one stored point (a `DataItem` plus the bookkeeping
`index` field used by downsampling). -/
structure FullDatum where
  index : ℕ
  x : ℚ
  y : ℚ
  receiveTime : Time
  headerStamp : Option Time
deriving DecidableEq

inductive TimestampMethod where
  | receiveTime
  | headerStamp
deriving DecidableEq

/-- The fields of `SeriesConfig` read by the modelled operations
(rendering attributes such as color and line size are not modelled). -/
structure SeriesConfig where
  messagePath : String
  timestampMethod : TimestampMethod
  showLine : Bool
  enabled : Bool
  derivative : Bool
deriving DecidableEq

/-- Per-series state: config plus the `current` (live) and `full`
(archival) buffers. -/
structure Series where
  config : SeriesConfig
  current : List FullDatum
  full : List FullDatum
deriving DecidableEq

/-- The builder's `#seriesByMessagePath` map, modelled as an association
list keyed by message path (a JS `Map` with unique keys and insertion
order). -/
abbrev Store := List (String × Series)

inductive UpdateDataAction where
  | resetFull (series : String)
  | resetCurrent (series : String)
  | appendCurrent (series : String) (items : List DataItem)
  | appendFull (series : String) (items : List DataItem)
deriving DecidableEq

def UpdateDataAction.seriesName : UpdateDataAction → String
  | .resetFull n => n
  | .resetCurrent n => n
  | .appendCurrent n _ => n
  | .appendFull n _ => n

def MAX_CURRENT_DATUMS : ℕ := 50000

/-- `Array.prototype.sort(compareDatum)` with `compareDatum = a.x - b.x`:
a stable ascending sort by `x`, modelled with `List.mergeSort`. -/
def sortFullByX (l : List FullDatum) : List FullDatum :=
  l.mergeSort fun a b => a.x ≤ b.x

/-- Stable ascending sort by `x` of incoming items
(`action.items.slice().sort(compareDatum)`). -/
def sortItemsByX (l : List DataItem) : List DataItem :=
  l.mergeSort fun a b => a.x ≤ b.x

/-- `series.full[series.full.length - 1]?.x`. -/
def lastFullX (full : List FullDatum) : Option ℚ :=
  full.getLast?.map FullDatum.x

/-- One `series.current.push({...})` with the running index. -/
def pushDatum (l : List FullDatum) (item : DataItem) : List FullDatum :=
  l ++ [⟨l.length, item.x, item.y, item.receiveTime, item.headerStamp⟩]

/-- The append loop of the `append-current` case: skip items whose `x` is
`≤ lastX`, push the rest. -/
def appendCurrentLoop : Option ℚ → List FullDatum → List DataItem → List FullDatum
  | _, cur, [] => cur
  | some lx, cur, item :: rest =>
    if item.x ≤ lx then appendCurrentLoop (some lx) cur rest
    else appendCurrentLoop (some lx) (pushDatum cur item) rest
  | none, cur, item :: rest => appendCurrentLoop none (pushDatum cur item) rest

/-- The `append-current` case of `#applyAction`: cull the live buffer to
the cap, append fresh (non-stale) items, and re-sort when ordering by
header stamp. -/
def appendCurrentOp (s : Series) (items : List DataItem) : Series :=
  let lastX := lastFullX s.full
  -- `Math.max(0, current.length + items.length - MAX_CURRENT_DATUMS)`
  -- (ℕ subtraction is truncated, which models the `Math.max(0, ·)`)
  let cullSize : ℕ := s.current.length + items.length - MAX_CURRENT_DATUMS
  let cur0 := s.current.drop cullSize
  let sorted :=
    if s.config.timestampMethod = .headerStamp then sortItemsByX items else items
  let cur1 := appendCurrentLoop lastX cur0 sorted
  let cur2 :=
    if s.config.timestampMethod = .headerStamp then sortFullByX cur1 else cur1
  { s with current := cur2 }

/-- The append loop of the `append-full` case. -/
def appendFullLoop (full : List FullDatum) : List DataItem → List FullDatum
  | [] => full
  | item :: rest => appendFullLoop (pushDatum full item) rest

/-- The `append-full` case of `#applyAction`: push all items, re-sort when
ordering by header stamp, then trim the front of `current` up to the last
`x` of `full`. -/
def appendFullOp (s : Series) (items : List DataItem) : Series :=
  let full0 := appendFullLoop s.full items
  let full1 :=
    if s.config.timestampMethod = .headerStamp then sortFullByX full0 else full0
  let cur :=
    match lastFullX full1 with
    | some lx => s.current.drop (s.current.takeWhile (fun d => d.x ≤ lx)).length
    | none => s.current
  { s with full := full1, current := cur }

/-- Mutate the series stored under `name`, if present (a JS
`Map.get` followed by in-place mutation; an unknown name is a no-op). -/
def modifySeries (f : Series → Series) : Store → String → Store
  | [], _ => []
  | (k, s) :: rest, name =>
    if k = name then (k, f s) :: rest
    else (k, s) :: modifySeries f rest name

/-- `#applyAction`. -/
def applyAction (st : Store) (a : UpdateDataAction) : Store :=
  match a with
  | .resetCurrent name => modifySeries (fun s => { s with current := [] }) st name
  | .resetFull name => modifySeries (fun s => { s with full := [] }) st name
  | .appendCurrent name items => modifySeries (fun s => appendCurrentOp s items) st name
  | .appendFull name items => modifySeries (fun s => appendFullOp s items) st name

/-- `updateData(actions)`: apply a batch of actions in order. -/
def updateData (st : Store) (actions : List UpdateDataAction) : Store :=
  actions.foldl applyAction st

/-! ### `getViewportDatasets` / `getCsvData` -/

/-- A JavaScript number that may be `NaN` (the builder inserts a
`{x: NaN, y: NaN}` datum as a discontinuity marker). -/
inductive JSNum where
  | num (q : ℚ)
  | nan
deriving DecidableEq

/-- `item.x < q` in JS: false when `item.x` is `NaN`. -/
def JSNum.ltQ : JSNum → ℚ → Bool
  | .num a, q => a < q
  | .nan, _ => false

/-- `item.x > q` in JS: false when `item.x` is `NaN`. -/
def JSNum.gtQ : JSNum → ℚ → Bool
  | .num a, q => q < a
  | .nan, _ => false

/-- An element of the `allData` working array of `getViewportDatasets`
(an aliased stored datum, or the fresh NaN marker). -/
structure PlotDatum where
  x : JSNum
  y : JSNum
  index : ℕ
  receiveTime : Time
  headerStamp : Option Time
deriving DecidableEq

def FullDatum.toPlot (d : FullDatum) : PlotDatum :=
  ⟨.num d.x, .num d.y, d.index, d.receiveTime, d.headerStamp⟩

/-- The NaN discontinuity marker
(`{x: NaN, y: NaN, index: 0, receiveTime: {sec: 0, nsec: 0}}`). -/
def nanDatum : PlotDatum := ⟨.nan, .nan, 0, ⟨0, 0⟩, none⟩

/-- The `allData` assembly of `getViewportDatasets`:
`full.slice()`, then — whenever `current` is non-empty — the NaN marker
followed by `current`. -/
def assembleAllData (s : Series) : List PlotDatum :=
  s.full.map FullDatum.toPlot ++
    (if s.current = [] then [] else nanDatum :: s.current.map FullDatum.toPlot)

/-- The `Viewport` handed to `getViewportDatasets`: pixel size plus
optional x/y bounds (an unset axis is inferred from the data). -/
structure Viewport where
  width : ℚ
  height : ℚ
  boundsX : Option Bounds1D
  boundsY : Option Bounds1D
deriving DecidableEq

/-- Whether iteration `i` of the trim loop of `getViewportDatasets` is the
last one: the loop breaks after iteration `i` when the datum lies past
`bounds.x.max` (checked only when the x bound is set, after the
`derivative && i == 0` and `x < bounds.x.min` continues). -/
def breaksAt (bx : Option Bounds1D) (derivative : Bool) (i : ℕ) (d : PlotDatum) : Bool :=
  if derivative = true ∧ i = 0 then false
  else
    match bx with
    | some b => if d.x.ltQ b.min then false else d.x.gtQ b.max
    | none => false

/-- Number of loop iterations executed by the trim loop of
`getViewportDatasets` starting at position `i`: every executed iteration
rewrites `item.index`, so this is the count of rewritten positions. -/
def visitedFrom (bx : Option Bounds1D) (derivative : Bool) : ℕ → List PlotDatum → ℕ
  | _, [] => 0
  | i, d :: rest =>
    if breaksAt bx derivative i d then 1 else 1 + visitedFrom bx derivative (i + 1) rest

def visitedCount (bx : Option Bounds1D) (derivative : Bool) (l : List PlotDatum) : ℕ :=
  visitedFrom bx derivative 0 l

/-- `item.index = i` applied through the aliases of `Array.slice`: the
stored datum at overall position `pos` gets `index := pos` when the loop
visited that position (`pos < n`). -/
def reindexUpto (n : ℕ) : ℕ → List FullDatum → List FullDatum
  | _, [] => []
  | pos, d :: rest =>
    (if pos < n then { d with index := pos } else d) :: reindexUpto n (pos + 1) rest

/-- The state effect of `getViewportDatasets` on one series: for an
enabled series the trim loop rewrites the `index` field of every stored
datum it visits (current data sits at offset `full.length + 1` in
`allData`, after the NaN marker); a disabled series is skipped.  The
derivative substitution writes a fresh object into the `allData` array
slot, so it does not affect stored data. -/
def reindexSeries (vp : Viewport) (s : Series) : Series :=
  if s.config.enabled then
    let n := visitedCount vp.boundsX s.config.derivative (assembleAllData s)
    { s with
      full := reindexUpto n 0 s.full
      current := reindexUpto n (s.full.length + 1) s.current }
  else s

/-- The state effect of `getViewportDatasets` on the whole store. -/
def getViewportDatasetsReindex (vp : Viewport) (st : Store) : Store :=
  st.map fun p => (p.1, reindexSeries vp p.2)

/-- One dataset returned by `getCsvData`. -/
structure CsvDataset where
  label : String
  data : List FullDatum
deriving DecidableEq

/-- `getCsvData()`: for each enabled series, `full` followed by `current`
(no NaN marker, no downsampling); it performs no writes to the store. -/
def getCsvData (st : Store) : List CsvDataset :=
  (st.filter fun p => p.2.config.enabled).map fun p =>
    ⟨p.2.config.messagePath, p.2.full ++ p.2.current⟩

/-! ### `BlockTopicCursor` -/

/-- Object identity of a per-topic message array inside a block.  The
cursor's reset detection compares identities (`!==`), never contents, so
payloads are represented by an identity tag. -/
abbrev Ref := ℕ

/-- `MessageBlock.messagesByTopic`: topic name to payload identity. -/
abbrev MessageBlock := List (String × Ref)

/-- Cursor state: the topic, the identity recorded at the last reset
(`#firstBlockRef`, initially `undefined`) and the next read position. -/
structure BlockTopicCursor where
  topic : String
  firstBlockRef : Option Ref
  nextBlockIdx : ℕ
deriving DecidableEq

/-- `new BlockTopicCursor(topic)`. -/
def newBlockTopicCursor (topic : String) : BlockTopicCursor := ⟨topic, none, 0⟩

/-- `blocks[0]?.messagesByTopic[topic]`: `undefined` when the block array
is empty, the first block is not loaded, or the topic is absent. -/
def blockTopicRef (topic : String) (blocks : List (Option MessageBlock)) : Option Ref :=
  match blocks.head? with
  | some (some b) => b.lookup topic
  | _ => none

/-- `nextWillReset(blocks)`: true when the first block's payload identity
for this topic differs from the identity recorded at the last reset. -/
def nextWillReset (c : BlockTopicCursor) (blocks : List (Option MessageBlock)) : Bool :=
  blockTopicRef c.topic blocks ≠ c.firstBlockRef

/-- `next(blocks)`: reset to index 0 on an identity change, then read the
block at the cursor index.  Returns the payload read (possibly absent)
and the updated cursor; the index advances only past a loaded block. -/
def cursorNext (c : BlockTopicCursor) (blocks : List (Option MessageBlock)) :
    Option Ref × BlockTopicCursor :=
  let bt := blockTopicRef c.topic blocks
  let c1 :=
    if bt ≠ c.firstBlockRef then { c with nextBlockIdx := 0, firstBlockRef := bt } else c
  if h : c1.nextBlockIdx < blocks.length then
    match blocks.get ⟨c1.nextBlockIdx, h⟩ with
    | none => (none, c1)
    | some block => (block.lookup c.topic, { c1 with nextBlockIdx := c1.nextBlockIdx + 1 })
  else (none, c1)

/-! ### Derived predicates and concrete instances used by the claims -/

/-- Whether a stored list is sorted (non-decreasing) by `x`. -/
def xSortedF (l : List FullDatum) : Prop := l.Pairwise fun a b => a.x ≤ b.x

/-- Boolean form of the cross-buffer invariant: every `current` entry has
`x` strictly beyond the last `x` of `full`. -/
def noStaleB (s : Series) : Bool :=
  match lastFullX s.full with
  | none => true
  | some lx => s.current.all fun d => lx < d.x

/-- The cross-buffer invariant of the spec (`current` never contains
points whose `x` is ≤ the last `x` in `full`). -/
def noStaleCurrent (s : Series) : Prop := noStaleB s = true

/-- Per-series invariant: both buffers sorted by `x` and no stale
`current` entries. -/
def seriesInv (s : Series) : Prop :=
  xSortedF s.full ∧ xSortedF s.current ∧ noStaleCurrent s

instance (l : List FullDatum) : Decidable (xSortedF l) :=
  inferInstanceAs (Decidable (List.Pairwise (fun a b : FullDatum => a.x ≤ b.x) l))

instance (s : Series) : Decidable (noStaleCurrent s) :=
  inferInstanceAs (Decidable (noStaleB s = true))

instance (s : Series) : Decidable (seriesInv s) :=
  inferInstanceAs (Decidable (xSortedF s.full ∧ xSortedF s.current ∧ noStaleCurrent s))

/-- The live-buffer cap invariant over a store. -/
def capOK (st : Store) : Prop :=
  ∀ p ∈ st, p.2.current.length ≤ MAX_CURRENT_DATUMS

/-- Number of items carried by an `append-current` action (0 for other
actions). -/
def batchSize : UpdateDataAction → ℕ
  | .appendCurrent _ items => items.length
  | _ => 0

/-- Every `append-current` batch in the list is within the cap. -/
def smallBatches (acts : List UpdateDataAction) : Prop :=
  ∀ a ∈ acts, batchSize a ≤ MAX_CURRENT_DATUMS

instance (st : Store) : Decidable (capOK st) :=
  decidable_of_iff (∀ p ∈ st, p.2.current.length ≤ MAX_CURRENT_DATUMS) Iff.rfl

instance (acts : List UpdateDataAction) : Decidable (smallBatches acts) :=
  decidable_of_iff (∀ a ∈ acts, batchSize a ≤ MAX_CURRENT_DATUMS) Iff.rfl

/-- Pixel columns of the points inside the extended buffer window (the
points the timeseries loop buckets into intervals). -/
def tsColsList (ppx minX maxX : ℚ) (pts : List DsPoint) : List ℤ :=
  (pts.filter fun p => decide (¬ p.x < minX) && decide (¬ maxX < p.x)).map
    fun p => jsTrunc (p.x * ppx)

/-- Distinct occupied pixel columns of `pts` under view `v`. -/
def tsColumns (pts : List DsPoint) (v : DsView) : List ℤ :=
  (tsColsList (ppxOf v) (minXOf v) (maxXOf v) pts).dedup

/-- Cell locators of the in-bounds points seen by `downsampleScatter`. -/
def scCellsList (ppx ppy width bxMin bxMax : ℚ) (pts : List DsPoint) : List ℚ :=
  pts.filterMap (scClassify ppx ppy width bxMin bxMax)

/-- Distinct occupied pixel cells of `pts` under view `v`. -/
def scCells (pts : List DsPoint) (v : DsView) : List ℚ :=
  (scCellsList (ppxOf v) (ppyOf v) v.width v.boundsX.min v.boundsX.max pts).dedup

/-- Data fields of a stored datum, excluding the bookkeeping index. -/
def datumData (d : FullDatum) : ℚ × ℚ × Time × Option Time :=
  (d.x, d.y, d.receiveTime, d.headerStamp)

/-- Loop invariant of the timeseries downsampler for label-free, x-sorted
input: `cols` is the set of pixel columns of the in-window points
processed so far.  Before the first interval opens at most one output
slot (the below-window point) is used; while an interval is open the
output size is at most `4 * cols.card - 2`, the open interval's column is
the maximum of `cols`, and `intLast` carries no label. -/
def DsInv (s : DsState) (cols : Finset ℤ) : Prop :=
  (s.intFirst = none →
    cols = ∅ ∧ s.downsampled.length ≤ 1 ∧
    s.intLast = none ∧ s.intMin = none ∧ s.intMax = none) ∧
  (∀ f, s.intFirst = some f →
    s.downsampled ≠ [] ∧ s.downsampled.length + 2 ≤ 4 * cols.card ∧
    f.xPixel ∈ cols ∧ (∀ c ∈ cols, c ≤ f.xPixel) ∧
    ∃ l, s.intLast = some l ∧ l.label = none)

/-- The three points of the shape-preservation scenario:
`(0,0), (1,100), (2,0)`. -/
def c4Points : List DsPoint :=
  [⟨0, 0, 0, none⟩, ⟨1, 100, 1, none⟩, ⟨2, 0, 2, none⟩]

/-- A viewport whose x scale maps `x ∈ {0,1,2}` into one pixel column and
whose y scale also maps `y ∈ {0,100}` into one pixel row. -/
def c4DegenerateView : DsView := ⟨2, 100, ⟨0, 8⟩, ⟨0, 100000⟩⟩

/-- Points for the boundary-policy scenario: one in-window point and two
points past the extended window (`maxX = 15`). -/
def c7Points : List DsPoint :=
  [⟨0, 0, 0, none⟩, ⟨16, 0, 1, none⟩, ⟨17, 5, 2, none⟩]

def c7View : DsView := ⟨10, 10, ⟨0, 10⟩, ⟨0, 10⟩⟩

/-- Points for the degenerate-viewport scenario. -/
def c8Points : List DsPoint := [⟨0, 0, 0, none⟩, ⟨1, 1, 1, none⟩]

/-- A viewport of width 0. -/
def c8ZeroWidthView : DsView := ⟨0, 10, ⟨0, 10⟩, ⟨0, 10⟩⟩

/-- Eight points inside one pixel column with alternating labels. -/
def c3LabeledPoints : List DsPoint :=
  [⟨0, 0, 0, some "a"⟩, ⟨1/100, 0, 1, some "b"⟩, ⟨2/100, 0, 2, some "a"⟩,
   ⟨3/100, 0, 3, some "b"⟩, ⟨4/100, 0, 4, some "a"⟩, ⟨5/100, 0, 5, some "b"⟩,
   ⟨6/100, 0, 6, some "a"⟩, ⟨7/100, 0, 7, some "b"⟩]

def c3View : DsView := ⟨1, 10, ⟨0, 10⟩, ⟨0, 10⟩⟩

/-- A small x-sorted, label-free point list (witness input for the
downsample bound). -/
def c3SortedPoints : List DsPoint :=
  [⟨0, 0, 0, none⟩, ⟨1, 1, 1, none⟩, ⟨2, 2, 2, none⟩]

/-- A non-degenerate viewport for the downsample bound witness. -/
def c3SortedView : DsView := ⟨4, 4, ⟨0, 4⟩, ⟨0, 4⟩⟩

/-- A fresh headerStamp-ordered series (used by witnesses). -/
def hsSeries : Series :=
  ⟨⟨"/topic.value", .headerStamp, true, true, false⟩, [], []⟩

/-- A fresh receive-time-ordered series. -/
def rtSeries : Series :=
  ⟨⟨"/topic.value", .receiveTime, true, true, false⟩, [], []⟩

def hsStore : Store := [("/topic.value", hsSeries)]

def rtStore : Store := [("/topic.value", rtSeries)]

def mkTime (n : ℤ) : Time := ⟨n, 0⟩

def mkItem (x : ℚ) : DataItem := ⟨x, 0, mkTime 0, none⟩

/-- Unordered live items: `x = 2, 5, 1`. -/
def c1CurrentItems : List DataItem := [mkItem 2, mkItem 5, mkItem 1]

/-- The action batch of the overlap-elimination counterexample. -/
def c1Acts : List UpdateDataAction :=
  [.appendCurrent "/topic.value" c1CurrentItems,
   .appendFull "/topic.value" [mkItem 4]]

/-- A single `append-current` batch of 50001 items. -/
def c2BigItems : List DataItem := List.replicate 50001 (mkItem 0)

/-- Block array for the cursor scenario: two loaded blocks whose
payloads for topic `/t` have identities 5 and 6. -/
def c5Blocks : List (Option MessageBlock) := [some [("/t", 5)], some [("/t", 6)]]

/-- The cursor after reading both blocks of `c5Blocks`. -/
def c5Cursor : BlockTopicCursor :=
  (cursorNext (cursorNext (newBlockTopicCursor "/t") c5Blocks).2 c5Blocks).2

/-- `c5Blocks` with the first block's payload replaced by a different
object (identity 7) for the same topic. -/
def c5NewBlocks : List (Option MessageBlock) := [some [("/t", 7)], some [("/t", 6)]]

/-- A series with empty `full` and a one-point `current`. -/
def c6Series : Series :=
  ⟨⟨"/topic.value", .receiveTime, true, true, false⟩, [⟨0, 1, 2, mkTime 0, none⟩], []⟩

/-! ## Helper lemmas -/

theorem jsTrunc_eq_floor_or_ceil (q : ℚ) :
    jsTrunc q = if 0 ≤ q then ⌊q⌋ else ⌈q⌉ := by
  unfold jsTrunc
  rcases le_or_lt 0 q with h | h
  · simp [h]
  · rw [if_neg (not_le.mpr h), if_neg (not_le.mpr h), Int.floor_neg, neg_neg]

theorem jsTrunc_mono {a b : ℚ} (h : a ≤ b) : jsTrunc a ≤ jsTrunc b := by
  rw [jsTrunc_eq_floor_or_ceil, jsTrunc_eq_floor_or_ceil]
  rcases le_or_lt 0 a with ha | ha <;> rcases le_or_lt 0 b with hb | hb
  · rw [if_pos ha, if_pos hb]
    exact Int.floor_le_floor h
  · exact absurd (ha.trans h) (not_le.mpr hb)
  · rw [if_neg (not_le.mpr ha), if_pos hb]
    have h1 : ⌈a⌉ ≤ 0 := Int.ceil_le.mpr (by exact_mod_cast ha.le)
    have h2 : (0 : ℤ) ≤ ⌊b⌋ := Int.le_floor.mpr (by exact_mod_cast hb)
    omega
  · rw [if_neg (not_le.mpr ha), if_neg (not_le.mpr hb)]
    exact Int.ceil_le_ceil h

theorem jsTrunc_lt_add_one (q : ℚ) : (jsTrunc q : ℚ) < q + 1 := by
  rw [jsTrunc_eq_floor_or_ceil]
  rcases le_or_lt 0 q with h | h
  · rw [if_pos h]
    exact lt_of_le_of_lt (Int.floor_le q) (by linarith)
  · rw [if_neg (not_le.mpr h)]
    exact Int.ceil_lt_add_one q

theorem sub_one_lt_jsTrunc (q : ℚ) : q - 1 < (jsTrunc q : ℚ) := by
  rw [jsTrunc_eq_floor_or_ceil]
  rcases le_or_lt 0 q with h | h
  · rw [if_pos h]
    exact Int.sub_one_lt_floor q
  · rw [if_neg (not_le.mpr h)]
    have := Int.le_ceil q
    linarith

theorem dsRun_eq_pixRun (ppx ppy minX maxX : ℚ) (s : DsState) (pts : List DsPoint) :
    dsRun ppx ppy minX maxX s pts =
      pixRun s (pts.map fun p => (classify ppx ppy minX maxX p, p.index, p.label)) := by
  induction pts generalizing s with
  | nil => rfl
  | cons p rest ih => simp [dsRun, pixRun, dsStep, ih]

theorem downsampleTimeseries_eq_pix (points : List DsPoint) (v : DsView) :
    downsampleTimeseries points v =
      dsFinish (pixRun initDsState
        (points.map fun p =>
          (classify (ppxOf v) (ppyOf v) (minXOf v) (maxXOf v) p, p.index, p.label))) := by
  rw [downsampleTimeseries, dsRun_eq_pixRun]

theorem scRun_eq_pixRun (ppx ppy width bxMin bxMax : ℚ) (s : ScState) (pts : List DsPoint) :
    scRun ppx ppy width bxMin bxMax s pts =
      scPixRun s (pts.map fun p => (scClassify ppx ppy width bxMin bxMax p, p.index)) := by
  induction pts generalizing s with
  | nil => rfl
  | cons p rest ih => simp [scRun, scPixRun, scStep, ih]

theorem downsampleScatter_eq_pix (points : List DsPoint) (v : DsView) :
    downsampleScatter points v =
      (scPixRun ⟨[], []⟩
        (points.map fun p =>
          (scClassify (ppxOf v) (ppyOf v) v.width v.boundsX.min v.boundsX.max p,
            p.index))).downsampled := by
  rw [downsampleScatter, scRun_eq_pixRun]

theorem lookup_cons (name k : String) (s : Series) (rest : Store) :
    List.lookup name ((k, s) :: rest) =
      if name = k then some s else List.lookup name rest := by
  rw [List.lookup]
  by_cases h : name = k
  · simp [h]
  · rw [show (name == k) = false from beq_eq_false_iff_ne.mpr h, if_neg h]

theorem modifySeries_of_lookup_none (f : Series → Series) (st : Store) (name : String)
    (h : st.lookup name = none) : modifySeries f st name = st := by
  induction st with
  | nil => rfl
  | cons p rest ih =>
    obtain ⟨k, s⟩ := p
    rw [lookup_cons] at h
    by_cases hk : k = name
    · rw [if_pos hk.symm] at h
      exact absurd h (by simp)
    · rw [if_neg (Ne.symm hk)] at h
      rw [modifySeries, if_neg hk, ih h]

theorem lookup_modifySeries_of_none (f : Series → Series) (st : Store)
    (name name' : String) (h : st.lookup name = none) :
    (modifySeries f st name').lookup name = none := by
  induction st with
  | nil => rfl
  | cons p rest ih =>
    obtain ⟨k, s⟩ := p
    rw [lookup_cons] at h
    by_cases hk : name = k
    · rw [if_pos hk] at h
      exact absurd h (by simp)
    · rw [if_neg hk] at h
      rw [modifySeries]
      by_cases hk' : k = name'
      · rw [if_pos hk', lookup_cons, if_neg hk]
        exact h
      · rw [if_neg hk', lookup_cons, if_neg hk]
        exact ih h

theorem lookup_applyAction_of_none (st : Store) (a : UpdateDataAction) (name : String)
    (h : st.lookup name = none) : (applyAction st a).lookup name = none := by
  cases a <;> exact lookup_modifySeries_of_none _ _ _ _ h

theorem lookup_updateData_of_none (st : Store) (acts : List UpdateDataAction) (name : String)
    (h : st.lookup name = none) : (updateData st acts).lookup name = none := by
  induction acts generalizing st with
  | nil => exact h
  | cons a rest ih => exact ih _ (lookup_applyAction_of_none st a name h)

theorem applyAction_of_unknown (st : Store) (a : UpdateDataAction)
    (h : st.lookup a.seriesName = none) : applyAction st a = st := by
  cases a <;> exact modifySeries_of_lookup_none _ _ _ h

theorem updateData_append (st : Store) (l1 l2 : List UpdateDataAction) :
    updateData st (l1 ++ l2) = updateData (updateData st l1) l2 := by
  simp [updateData, List.foldl_append]

theorem updateData_cons (st : Store) (a : UpdateDataAction) (rest : List UpdateDataAction) :
    updateData st (a :: rest) = updateData (applyAction st a) rest := rfl

/-! ## Claim theorems -/

/-- C9: an `updateData` action whose target series name is not in the
store leaves the store unchanged (a silent no-op), and the rest of the
batch is applied exactly as if that action were absent. -/
theorem c9_unknown_series_is_noop (st : Store) (a : UpdateDataAction)
    (before after : List UpdateDataAction)
    (h : st.lookup a.seriesName = none) :
    applyAction st a = st ∧
    updateData st (before ++ a :: after) = updateData st (before ++ after) := by
  refine ⟨applyAction_of_unknown st a h, ?_⟩
  rw [updateData_append, updateData_append, updateData_cons,
    applyAction_of_unknown _ a (lookup_updateData_of_none st before _ h)]

/-- Witness for C9 at a concrete store and batch: the middle action of
the batch targets an unknown series `"/missing"`. -/
theorem c9_unknown_series_is_noop_witness :
    (rtStore.lookup (UpdateDataAction.resetFull "/missing").seriesName = none) ∧
    (applyAction rtStore (.resetFull "/missing") = rtStore ∧
      updateData rtStore
          ([.appendCurrent "/topic.value" [mkItem 1]] ++
            UpdateDataAction.resetFull "/missing" ::
              [.appendFull "/topic.value" [mkItem 2]]) =
        updateData rtStore
          ([.appendCurrent "/topic.value" [mkItem 1]] ++
            [.appendFull "/topic.value" [mkItem 2]])) :=
  ⟨by decide, c9_unknown_series_is_noop rtStore (.resetFull "/missing") _ _ (by decide)⟩

/-- C5: when the host replaces the first block's payload for the cursor's
topic with an object of a different identity, `nextWillReset` reports
true and the following `next` restarts at block index 0: it returns the
new first block's payload and leaves the cursor at index 1. -/
theorem c5_cursor_reset_detection (c : BlockTopicCursor)
    (blocks : List (Option MessageBlock)) (b0 : MessageBlock) (r r' : Ref)
    (hrec : c.firstBlockRef = some r)
    (hb : blocks.head? = some (some b0))
    (hb0 : b0.lookup c.topic = some r')
    (hne : r' ≠ r) :
    nextWillReset c blocks = true ∧
    (cursorNext c blocks).1 = some r' ∧
    (cursorNext c blocks).2.nextBlockIdx = 1 ∧
    (cursorNext c blocks).2.firstBlockRef = some r' := by
  cases blocks with
  | nil => simp at hb
  | cons hd tl =>
    have hhd : hd = some b0 := by simpa using hb
    subst hhd
    have href : blockTopicRef c.topic (some b0 :: tl) = some r' := by
      simp [blockTopicRef, hb0]
    have hdiff : blockTopicRef c.topic (some b0 :: tl) ≠ c.firstBlockRef := by
      rw [href, hrec]
      simp [hne]
    refine ⟨by simp [nextWillReset, hdiff, hb0], ?_, ?_, ?_⟩ <;>
      simp [cursorNext, href, hrec, hne, hdiff, hb0]

/-- Witness for C5: a cursor that has read blocks `[B0, B1]` (payload
identities 5 and 6) is handed the same array with `B0`'s payload replaced
by a fresh object (identity 7). -/
theorem c5_cursor_reset_detection_witness :
    (c5Cursor.firstBlockRef = some 5 ∧ (7 : Ref) ≠ 5) ∧
    (nextWillReset c5Cursor c5NewBlocks = true ∧
      (cursorNext c5Cursor c5NewBlocks).1 = some 7 ∧
      (cursorNext c5Cursor c5NewBlocks).2.nextBlockIdx = 1 ∧
      (cursorNext c5Cursor c5NewBlocks).2.firstBlockRef = some 7) :=
  ⟨⟨by decide, by decide⟩,
    c5_cursor_reset_detection c5Cursor c5NewBlocks [("/t", 7)] 5 7
      (by decide) (by decide) (by decide) (by decide)⟩

/-- C6 (amended): `getViewportDatasets` assembles `full` followed by
`current` and inserts exactly one NaN marker in between whenever
`current` is non-empty — including when `full` is empty; no marker
appears when `current` is empty. -/
theorem c6_nan_marker_iff_current_nonempty (s : Series) :
    ((assembleAllData s).countP fun d => decide (d.x = JSNum.nan)) =
      (if s.current = [] then 0 else 1) ∧
    (assembleAllData s).take s.full.length = s.full.map FullDatum.toPlot ∧
    (assembleAllData s).drop s.full.length =
      (if s.current = [] then [] else nanDatum :: s.current.map FullDatum.toPlot) := by
  have hzero : ∀ l : List FullDatum,
      (l.map FullDatum.toPlot).countP (fun d => decide (d.x = JSNum.nan)) = 0 := by
    intro l
    rw [List.countP_map]
    refine List.countP_eq_zero.mpr ?_
    intro d _
    simp [FullDatum.toPlot, Function.comp]
  refine ⟨?_, ?_, ?_⟩
  · rw [assembleAllData, List.countP_append, hzero]
    by_cases hc : s.current = []
    · simp [hc]
    · rw [if_neg hc, if_neg hc]
      simp [List.countP_cons, hzero, nanDatum]
  · rw [assembleAllData, show s.full.length = (s.full.map FullDatum.toPlot).length by simp,
      List.take_left]
  · rw [assembleAllData, show s.full.length = (s.full.map FullDatum.toPlot).length by simp,
      List.drop_left]

/-- C6 counterexample: with `full` empty and `current` non-empty the
claimed "no NaN marker unless both buffers are non-empty" fails — the
assembled data still carries exactly one NaN marker. -/
theorem c6_marker_without_full_counterexample :
    c6Series.full = [] ∧ c6Series.current ≠ [] ∧
    ((assembleAllData c6Series).countP fun d => decide (d.x = JSNum.nan)) = 1 :=
  ⟨rfl, by decide, by decide⟩

theorem reindexUpto_map_datumData (n : ℕ) (pos : ℕ) (l : List FullDatum) :
    (reindexUpto n pos l).map datumData = l.map datumData := by
  induction l generalizing pos with
  | nil => rfl
  | cons d rest ih =>
    rw [reindexUpto]
    by_cases h : pos < n <;> simp [h, ih, datumData]

theorem reindexSeries_preserves (vp : Viewport) (s : Series) :
    (reindexSeries vp s).config = s.config ∧
    (reindexSeries vp s).full.map datumData = s.full.map datumData ∧
    (reindexSeries vp s).current.map datumData = s.current.map datumData := by
  rw [reindexSeries]
  cases hE : s.config.enabled <;> simp [hE, reindexUpto_map_datumData]

/-- C10: the state effect of `getViewportDatasets` rewrites only the
bookkeeping `index` fields: every series keeps its config and the exact
sequence of `(x, y, receiveTime, headerStamp)` values in both buffers
(no point is added, removed, or reordered); consequently what
`getCsvData` observes is also unchanged by the rewrite (and `getCsvData`
itself performs no store writes in the source). -/
theorem c10_queries_leave_data_unchanged (vp : Viewport) (st : Store) :
    (getViewportDatasetsReindex vp st).map
        (fun p => (p.1, p.2.config, p.2.full.map datumData, p.2.current.map datumData)) =
      st.map
        (fun p => (p.1, p.2.config, p.2.full.map datumData, p.2.current.map datumData)) ∧
    (getCsvData (getViewportDatasetsReindex vp st)).map
        (fun ds => (ds.label, ds.data.map datumData)) =
      (getCsvData st).map fun ds => (ds.label, ds.data.map datumData) := by
  constructor
  · rw [getViewportDatasetsReindex, List.map_map]
    refine List.map_congr_left ?_
    intro p _
    obtain ⟨hc, hf, hcur⟩ := reindexSeries_preserves vp p.2
    simp [Function.comp, hc, hf, hcur]
  · have hfilter : List.filter (fun p => p.2.config.enabled)
        (st.map fun p => (p.1, reindexSeries vp p.2)) =
        (st.filter fun p => p.2.config.enabled).map fun p => (p.1, reindexSeries vp p.2) := by
      rw [List.filter_map]
      refine congrArg _ (List.filter_congr ?_)
      intro p _
      obtain ⟨hc, _, _⟩ := reindexSeries_preserves vp p.2
      simp [Function.comp, hc]
    rw [getViewportDatasetsReindex, getCsvData, getCsvData, hfilter,
      List.map_map, List.map_map, List.map_map]
    refine List.map_congr_left ?_
    intro p _
    obtain ⟨hc, hf, hcur⟩ := reindexSeries_preserves vp p.2
    simp [Function.comp, hc, List.map_append, hf, hcur]

/-- C8 (amended): both downsamplers return empty output on empty input;
the source contains no guard for degenerate viewports, so a zero-sized
viewport does not short-circuit (see the counterexample). -/
theorem c8_empty_input_empty_output (v w : DsView) :
    downsampleTimeseries [] v = [] ∧ downsampleScatter [] w = [] := by
  constructor
  · simp [downsampleTimeseries, dsRun, dsFinish, flushPushes, initDsState]
  · simp [downsampleScatter, scRun]

/-- C8 counterexample: with viewport width 0 (and sane bounds) the
timeseries downsampler does not short-circuit to empty output — every
in-window point lands in pixel column 0 and the output is non-empty. -/
theorem c8_zero_width_not_empty_counterexample :
    downsampleTimeseries c8Points c8ZeroWidthView = [0, 0] ∧
    downsampleTimeseries c8Points c8ZeroWidthView ≠ [] := by
  have h : downsampleTimeseries c8Points c8ZeroWidthView = [0, 0] := by
    rw [downsampleTimeseries_eq_pix]
    have hmap : c8Points.map (fun p =>
        (classify (ppxOf c8ZeroWidthView) (ppyOf c8ZeroWidthView)
          (minXOf c8ZeroWidthView) (maxXOf c8ZeroWidthView) p, p.index, p.label)) =
        [(.inWin 0 0, 0, none), (.inWin 0 1, 1, none)] := by
      norm_num [c8Points, c8ZeroWidthView, classify, ppxOf, ppyOf, minXOf, maxXOf, jsTrunc]
    rw [hmap]
    decide
  exact ⟨h, by rw [h]; simp⟩

/-- C7: evaluation at the failing input.  With one in-window point and
two points past `bounds.x.max + range/2` (indices 1 and 2), the loop
overwrites `firstPastBounds` on every past-bounds datum, so the retained
tail point is the last past-bounds point (index 2), not the first
(index 1) as the spec (and the code's own comment) state. -/
theorem c7_last_past_bounds_retained :
    downsampleTimeseries c7Points c7View = [0, 2] ∧
    1 ∉ downsampleTimeseries c7Points c7View := by
  have h : downsampleTimeseries c7Points c7View = [0, 2] := by
    rw [downsampleTimeseries_eq_pix]
    have hmap : c7Points.map (fun p =>
        (classify (ppxOf c7View) (ppyOf c7View) (minXOf c7View) (maxXOf c7View) p,
          p.index, p.label)) =
        [(.inWin 0 0, 0, none), (.above, 1, none), (.above, 2, none)] := by
      norm_num [c7Points, c7View, classify, ppxOf, ppyOf, minXOf, maxXOf, jsTrunc]
    rw [hmap]
    decide
  exact ⟨h, by rw [h]; decide⟩

/-- C4 (amended): for the points `(0,0), (1,100), (2,0)` and any viewport
whose x scale maps all three into one pixel column, which keeps them
inside the extended window, and whose y scale separates `y = 100` from
`y = 0` (distinct pixel rows), the downsampled output is exactly the
indices of the points realizing the interval minimum (`y = 0`, index 0)
and the interval maximum (`y = 100`, index 1) — not merely first/last. -/
theorem c4_min_and_max_retained (v : DsView)
    (hwin1 : minXOf v ≤ 0) (hwin2 : (2 : ℚ) ≤ maxXOf v)
    (hcol1 : jsTrunc (1 * ppxOf v) = 0) (hcol2 : jsTrunc (2 * ppxOf v) = 0)
    (hy : jsTrunc (100 * ppyOf v) ≠ 0) :
    downsampleTimeseries c4Points v = [0, 1] := by
  have h0x : jsTrunc ((0 : ℚ) * ppxOf v) = 0 := by norm_num [jsTrunc]
  have h0y : jsTrunc ((0 : ℚ) * ppyOf v) = 0 := by norm_num [jsTrunc]
  have h2y : jsTrunc ((0 : ℚ) * ppyOf v) = 0 := h0y
  have hin : ∀ q : ℚ, 0 ≤ q → q ≤ 2 → ¬(q < minXOf v) ∧ ¬(maxXOf v < q) := by
    intro q h1 h2
    exact ⟨not_lt.mpr (hwin1.trans h1), not_lt.mpr (h2.trans hwin2)⟩
  obtain ⟨ha0, hb0⟩ := hin 0 (by norm_num) (by norm_num)
  obtain ⟨ha1, hb1⟩ := hin 1 (by norm_num) (by norm_num)
  obtain ⟨ha2, hb2⟩ := hin 2 (by norm_num) (by norm_num)
  rw [downsampleTimeseries_eq_pix]
  have hz : jsTrunc 0 = 0 := by norm_num [jsTrunc]
  have hcol1' : jsTrunc (ppxOf v) = 0 := by rw [← one_mul (ppxOf v)]; exact hcol1
  have hmap : c4Points.map (fun p =>
      (classify (ppxOf v) (ppyOf v) (minXOf v) (maxXOf v) p, p.index, p.label)) =
      [(.inWin 0 0, 0, none), (.inWin 0 (jsTrunc (100 * ppyOf v)), 1, none),
        (.inWin 0 0, 2, none)] := by
    simp [c4Points, classify, ha0, hb0, ha1, hb1, ha2, hb2, h0x, h0y, hcol1, hcol2, hz, hcol1']
  rw [hmap]
  rcases lt_or_gt_of_ne hy with hneg | hpos
  · have h1 : ¬ (0 : ℤ) < jsTrunc (100 * ppyOf v) := not_lt.mpr hneg.le
    have h2 : (0 : ℤ) ≠ jsTrunc (100 * ppyOf v) := Ne.symm hy
    simp [pixRun, stepK, labelBreak, flushPushes, dsFinish, initDsState, hneg, h1, h2, hy]
  · have h1 : ¬ jsTrunc (100 * ppyOf v) < (0 : ℤ) := not_lt.mpr hpos.le
    have h2 : (0 : ℤ) ≠ jsTrunc (100 * ppyOf v) := Ne.symm hy
    simp [pixRun, stepK, labelBreak, flushPushes, dsFinish, initDsState, hpos, h1, h2, hy]

/-- Witness for C4 at the concrete viewport `2×100` px over bounds
`x ∈ [0,8]`, `y ∈ [0,100]`: the x scale (1/4 px per unit) buckets
`x ∈ {0,1,2}` into column 0 and the y scale (1 px per unit) separates
`y = 100` from `y = 0`. -/
theorem c4_min_and_max_retained_witness :
    (minXOf ⟨2, 100, ⟨0, 8⟩, ⟨0, 100⟩⟩ ≤ 0 ∧
      (2 : ℚ) ≤ maxXOf ⟨2, 100, ⟨0, 8⟩, ⟨0, 100⟩⟩ ∧
      jsTrunc (1 * ppxOf ⟨2, 100, ⟨0, 8⟩, ⟨0, 100⟩⟩) = 0 ∧
      jsTrunc (2 * ppxOf ⟨2, 100, ⟨0, 8⟩, ⟨0, 100⟩⟩) = 0 ∧
      jsTrunc (100 * ppyOf ⟨2, 100, ⟨0, 8⟩, ⟨0, 100⟩⟩) ≠ 0) ∧
    downsampleTimeseries c4Points ⟨2, 100, ⟨0, 8⟩, ⟨0, 100⟩⟩ = [0, 1] :=
  ⟨⟨by norm_num [minXOf], by norm_num [maxXOf],
    by norm_num [ppxOf, jsTrunc], by norm_num [ppxOf, jsTrunc],
    by norm_num [ppyOf, jsTrunc]⟩,
    c4_min_and_max_retained _ (by norm_num [minXOf]) (by norm_num [maxXOf])
      (by norm_num [ppxOf, jsTrunc]) (by norm_num [ppxOf, jsTrunc])
      (by norm_num [ppyOf, jsTrunc])⟩

/-- C4 counterexample to the claim as stated: a viewport that maps all
three points into a single pixel column but whose y scale also collapses
`y = 100` into pixel row 0 keeps only the first point — no output index
realizes the interval maximum `y = 100`. -/
theorem c4_degenerate_y_counterexample :
    downsampleTimeseries c4Points c4DegenerateView = [0] ∧
    1 ∉ downsampleTimeseries c4Points c4DegenerateView := by
  have h : downsampleTimeseries c4Points c4DegenerateView = [0] := by
    rw [downsampleTimeseries_eq_pix]
    have hmap : c4Points.map (fun p =>
        (classify (ppxOf c4DegenerateView) (ppyOf c4DegenerateView)
          (minXOf c4DegenerateView) (maxXOf c4DegenerateView) p, p.index, p.label)) =
        [(.inWin 0 0, 0, none), (.inWin 0 0, 1, none), (.inWin 0 0, 2, none)] := by
      norm_num [c4Points, c4DegenerateView, classify, ppxOf, ppyOf, minXOf, maxXOf, jsTrunc]
    rw [hmap]
    decide
  exact ⟨h, by rw [h]; decide⟩

theorem pushDatum_length (l : List FullDatum) (item : DataItem) :
    (pushDatum l item).length = l.length + 1 := by simp [pushDatum]

theorem appendCurrentLoop_length_le (lastX : Option ℚ) (cur : List FullDatum)
    (items : List DataItem) :
    (appendCurrentLoop lastX cur items).length ≤ cur.length + items.length := by
  induction items generalizing cur with
  | nil => simp [appendCurrentLoop]
  | cons item rest ih =>
    cases lastX with
    | none =>
      rw [appendCurrentLoop]
      have h := ih (pushDatum cur item)
      rw [pushDatum_length] at h
      simp only [List.length_cons]
      omega
    | some lx =>
      rw [appendCurrentLoop]
      by_cases h : item.x ≤ lx
      · rw [if_pos h]
        have := ih cur
        simp only [List.length_cons]
        omega
      · rw [if_neg h]
        have h2 := ih (pushDatum cur item)
        rw [pushDatum_length] at h2
        simp only [List.length_cons]
        omega

theorem appendCurrentLoop_length_of_none (cur : List FullDatum) (items : List DataItem) :
    (appendCurrentLoop none cur items).length = cur.length + items.length := by
  induction items generalizing cur with
  | nil => simp [appendCurrentLoop]
  | cons item rest ih =>
    rw [appendCurrentLoop, ih, pushDatum_length]
    simp only [List.length_cons]
    omega

theorem appendCurrentOp_current (s : Series) (items : List DataItem) :
    (appendCurrentOp s items).current =
      (if s.config.timestampMethod = .headerStamp
        then sortFullByX (appendCurrentLoop (lastFullX s.full)
          (s.current.drop (s.current.length + items.length - MAX_CURRENT_DATUMS))
          (sortItemsByX items))
        else appendCurrentLoop (lastFullX s.full)
          (s.current.drop (s.current.length + items.length - MAX_CURRENT_DATUMS)) items) := by
  rw [appendCurrentOp]
  rcases hts : s.config.timestampMethod <;> simp [hts]

theorem appendCurrentOp_length_le (s : Series) (items : List DataItem) :
    (appendCurrentOp s items).current.length ≤ max MAX_CURRENT_DATUMS items.length := by
  have hM : MAX_CURRENT_DATUMS = 50000 := rfl
  have key : ∀ its : List DataItem, its.length = items.length →
      (appendCurrentLoop (lastFullX s.full)
        (s.current.drop (s.current.length + items.length - MAX_CURRENT_DATUMS))
        its).length ≤ max MAX_CURRENT_DATUMS items.length := by
    intro its hits
    have h := appendCurrentLoop_length_le (lastFullX s.full)
      (s.current.drop (s.current.length + items.length - MAX_CURRENT_DATUMS)) its
    rw [List.length_drop, hits] at h
    rcases le_or_lt items.length MAX_CURRENT_DATUMS with hL | hL
    · exact le_trans (by omega) (le_max_left _ _)
    · exact le_trans (by omega) (le_max_right _ _)
  rw [appendCurrentOp_current]
  split
  · rw [sortFullByX, List.length_mergeSort]
    exact key _ (by rw [sortItemsByX, List.length_mergeSort])
  · exact key _ rfl

theorem appendFullOp_current_length_le (s : Series) (items : List DataItem) :
    (appendFullOp s items).current.length ≤ s.current.length := by
  simp only [appendFullOp]
  rcases lastFullX (if s.config.timestampMethod = .headerStamp
      then sortFullByX (appendFullLoop s.full items) else appendFullLoop s.full items) with _ | lx
  · simp
  · simp only []
    exact le_trans (by rw [List.length_drop]; omega) (le_refl _)

theorem mem_modifySeries (f : Series → Series) (st : Store) (name : String)
    (p : String × Series) (hp : p ∈ modifySeries f st name) :
    p ∈ st ∨ ∃ q ∈ st, p = (q.1, f q.2) := by
  induction st with
  | nil => simp [modifySeries] at hp
  | cons q rest ih =>
    obtain ⟨k, s⟩ := q
    rw [modifySeries] at hp
    by_cases hk : k = name
    · rw [if_pos hk] at hp
      rcases List.mem_cons.mp hp with h | h
      · exact Or.inr ⟨(k, s), List.mem_cons_self _ _, h⟩
      · exact Or.inl (List.mem_cons_of_mem _ h)
    · rw [if_neg hk] at hp
      rcases List.mem_cons.mp hp with h | h
      · exact Or.inl (h ▸ List.mem_cons_self _ _)
      · rcases ih h with h' | ⟨q', hq', he⟩
        · exact Or.inl (List.mem_cons_of_mem _ h')
        · exact Or.inr ⟨q', List.mem_cons_of_mem _ hq', he⟩

theorem applyAction_capOK (st : Store) (a : UpdateDataAction)
    (h0 : capOK st) (hb : batchSize a ≤ MAX_CURRENT_DATUMS) :
    capOK (applyAction st a) := by
  intro p hp
  cases a with
  | resetCurrent name =>
    rcases mem_modifySeries _ st name p hp with h | ⟨q, hq, he⟩
    · exact h0 p h
    · rw [he]
      simp [MAX_CURRENT_DATUMS]
  | resetFull name =>
    rcases mem_modifySeries _ st name p hp with h | ⟨q, hq, he⟩
    · exact h0 p h
    · rw [he]
      exact h0 q hq
  | appendFull name items =>
    rcases mem_modifySeries _ st name p hp with h | ⟨q, hq, he⟩
    · exact h0 p h
    · rw [he]
      exact le_trans (appendFullOp_current_length_le q.2 items) (h0 q hq)
  | appendCurrent name items =>
    rcases mem_modifySeries _ st name p hp with h | ⟨q, hq, he⟩
    · exact h0 p h
    · rw [he]
      have h := appendCurrentOp_length_le q.2 items
      have hb' : items.length ≤ MAX_CURRENT_DATUMS := by simpa [batchSize] using hb
      rw [max_eq_left hb'] at h
      exact h

/-- C2 (amended): across any sequence of `updateData` actions in which
every single `append-current` batch carries at most 50,000 items, the
`current` buffer of every series never exceeds 50,000 points (front
culling drops enough existing points before the new items are appended).
A single larger batch can exceed the cap — see the counterexample. -/
theorem c2_current_cap (st : Store) (acts : List UpdateDataAction)
    (h0 : capOK st) (hb : smallBatches acts) : capOK (updateData st acts) := by
  induction acts generalizing st with
  | nil => exact h0
  | cons a rest ih =>
    rw [updateData_cons]
    exact ih _ (applyAction_capOK st a h0 (hb a (List.mem_cons_self _ _)))
      (fun a' ha' => hb a' (List.mem_cons_of_mem _ ha'))

/-- Witness for C2 at a concrete store and batch. -/
theorem c2_current_cap_witness :
    (capOK rtStore ∧ smallBatches [.appendCurrent "/topic.value" [mkItem 1, mkItem 2]]) ∧
    capOK (updateData rtStore [.appendCurrent "/topic.value" [mkItem 1, mkItem 2]]) :=
  ⟨⟨by decide, by decide⟩,
    c2_current_cap rtStore [.appendCurrent "/topic.value" [mkItem 1, mkItem 2]]
      (by decide) (by decide)⟩

/-- C2 counterexample to the claim as stated: a single `append-current`
batch of 50,001 items on a series with empty buffers leaves
`current.length = 50001 > 50000`; the culling only removes points already
in `current`, never incoming items. -/
theorem c2_big_batch_counterexample :
    ((updateData rtStore [.appendCurrent "/topic.value" c2BigItems]).lookup
        "/topic.value").map (fun s => s.current.length) = some 50001 ∧
    MAX_CURRENT_DATUMS < 50001 := by
  constructor
  · have hstep : updateData rtStore [.appendCurrent "/topic.value" c2BigItems] =
        [("/topic.value", appendCurrentOp rtSeries c2BigItems)] := by
      simp [updateData, applyAction, rtStore, modifySeries]
    rw [hstep, lookup_cons, if_pos rfl, Option.map_some']
    have hlen : (appendCurrentOp rtSeries c2BigItems).current.length = 50001 := by
      rw [appendCurrentOp_current, if_neg (by decide)]
      rw [show lastFullX rtSeries.full = none from rfl]
      rw [show rtSeries.current = [] from rfl, List.drop_nil]
      rw [appendCurrentLoop_length_of_none]
      rw [show c2BigItems.length = 50001 by
        rw [c2BigItems, List.length_replicate]]
      norm_num
    rw [hlen]
  · decide

theorem appendCurrentOp_config (s : Series) (items : List DataItem) :
    (appendCurrentOp s items).config = s.config := rfl

theorem appendCurrentOp_full (s : Series) (items : List DataItem) :
    (appendCurrentOp s items).full = s.full := rfl

theorem appendFullOp_config (s : Series) (items : List DataItem) :
    (appendFullOp s items).config = s.config := rfl

theorem xSortedF_sortFullByX (l : List FullDatum) : xSortedF (sortFullByX l) := by
  have h := @List.sorted_mergeSort FullDatum (fun a b => decide (a.x ≤ b.x))
    (fun a b c hab hbc => by
      simp only [decide_eq_true_eq] at *
      exact le_trans hab hbc)
    (fun a b => by
      simp only [Bool.or_eq_true, decide_eq_true_eq]
      exact le_total a.x b.x)
    l
  exact h.imp fun hab => of_decide_eq_true hab

theorem noStale_spec (s : Series) (hns : noStaleCurrent s) (lx : ℚ)
    (hlx : lastFullX s.full = some lx) : ∀ d ∈ s.current, lx < d.x := by
  unfold noStaleCurrent noStaleB at hns
  rw [hlx] at hns
  intro d hd
  exact of_decide_eq_true (List.all_eq_true.mp hns d hd)

theorem noStale_mk (cfg : SeriesConfig) (cur full : List FullDatum)
    (h : ∀ lx, lastFullX full = some lx → ∀ d ∈ cur, lx < d.x) :
    noStaleCurrent ⟨cfg, cur, full⟩ := by
  unfold noStaleCurrent noStaleB
  rcases hlx : lastFullX full with _ | lx
  · rfl
  · rw [List.all_eq_true]
    intro d hd
    exact decide_eq_true (h lx hlx d hd)

theorem mem_drop_takeWhile_gt (lx : ℚ) (l : List FullDatum) (hs : xSortedF l) :
    ∀ d ∈ l.drop (l.takeWhile fun d => decide (d.x ≤ lx)).length, lx < d.x := by
  induction l with
  | nil => simp
  | cons a rest ih =>
    rw [List.takeWhile]
    by_cases ha : a.x ≤ lx
    · rw [show decide (a.x ≤ lx) = true from decide_eq_true ha]
      simp only [List.length_cons, List.drop_succ_cons]
      exact ih (List.Pairwise.of_cons hs)
    · rw [show decide (a.x ≤ lx) = false from decide_eq_false ha]
      simp only [List.length_nil, List.drop_zero]
      intro d hd
      rcases List.mem_cons.mp hd with rfl | hd'
      · exact not_le.mp ha
      · exact lt_of_lt_of_le (not_le.mp ha) (List.rel_of_pairwise_cons hs hd')

theorem mem_appendCurrentLoop (lx : ℚ) (cur : List FullDatum) (items : List DataItem)
    (d : FullDatum) (hd : d ∈ appendCurrentLoop (some lx) cur items) :
    d ∈ cur ∨ lx < d.x := by
  induction items generalizing cur with
  | nil =>
    rw [appendCurrentLoop] at hd
    exact Or.inl hd
  | cons item rest ih =>
    rw [appendCurrentLoop] at hd
    by_cases h : item.x ≤ lx
    · rw [if_pos h] at hd
      exact ih cur hd
    · rw [if_neg h] at hd
      rcases ih _ hd with h' | h'
      · rcases List.mem_append.mp h' with h'' | h''
        · exact Or.inl h''
        · rcases List.mem_singleton.mp h''
          exact Or.inr (not_le.mp h)
      · exact Or.inr h'

theorem seriesInv_resetCurrent (s : Series) (h : seriesInv s) :
    seriesInv { s with current := [] } := by
  obtain ⟨hsf, _, _⟩ := h
  refine ⟨hsf, List.Pairwise.nil, ?_⟩
  unfold noStaleCurrent noStaleB
  rcases lastFullX s.full with _ | lx <;> simp

theorem seriesInv_resetFull (s : Series) (h : seriesInv s) :
    seriesInv { s with full := [] } := by
  obtain ⟨_, hsc, _⟩ := h
  exact ⟨List.Pairwise.nil, hsc, rfl⟩

theorem xSortedF_trimmed (cur : List FullDatum) (hsc : xSortedF cur) (o : Option ℚ) :
    xSortedF (match o with
      | some lx => cur.drop (cur.takeWhile fun d => decide (d.x ≤ lx)).length
      | none => cur) := by
  rcases o with _ | lx
  · exact hsc
  · exact List.Pairwise.sublist (List.drop_sublist _ _) hsc

theorem noStaleB_trimmed (cfg : SeriesConfig) (cur F : List FullDatum) (hsc : xSortedF cur) :
    noStaleCurrent ⟨cfg, (match lastFullX F with
      | some lx => cur.drop (cur.takeWhile fun d => decide (d.x ≤ lx)).length
      | none => cur), F⟩ := by
  unfold noStaleCurrent noStaleB
  rcases hlx : lastFullX F with _ | lx
  · rfl
  · dsimp only
    rw [List.all_eq_true]
    intro d hd
    exact decide_eq_true (mem_drop_takeWhile_gt lx cur hsc d hd)

theorem seriesInv_appendFullOp (s : Series) (items : List DataItem)
    (hts : s.config.timestampMethod = .headerStamp) (h : seriesInv s) :
    seriesInv (appendFullOp s items) := by
  obtain ⟨cfg, cur, full⟩ := s
  obtain ⟨hsf, hsc, hns⟩ := h
  have hstep : appendFullOp ⟨cfg, cur, full⟩ items =
      ⟨cfg, (match lastFullX (sortFullByX (appendFullLoop full items)) with
        | some lx => cur.drop (cur.takeWhile fun d => decide (d.x ≤ lx)).length
        | none => cur), sortFullByX (appendFullLoop full items)⟩ := by
    rw [appendFullOp]
    dsimp only
    rw [hts]
    simp
  rw [hstep]
  exact ⟨xSortedF_sortFullByX _, xSortedF_trimmed cur hsc _, noStaleB_trimmed cfg cur _ hsc⟩

theorem seriesInv_appendCurrentOp (s : Series) (items : List DataItem)
    (hts : s.config.timestampMethod = .headerStamp) (h : seriesInv s) :
    seriesInv (appendCurrentOp s items) := by
  obtain ⟨hsf, hsc, hns⟩ := h
  have hcur : (appendCurrentOp s items).current =
      sortFullByX (appendCurrentLoop (lastFullX s.full)
        (s.current.drop (s.current.length + items.length - MAX_CURRENT_DATUMS))
        (sortItemsByX items)) := by
    rw [appendCurrentOp_current, if_pos hts]
  refine ⟨by rw [appendCurrentOp_full]; exact hsf, ?_, ?_⟩
  · rw [hcur]
    exact xSortedF_sortFullByX _
  · unfold noStaleCurrent noStaleB
    rw [appendCurrentOp_full, hcur]
    rcases hlx : lastFullX s.full with _ | lx
    · rfl
    · dsimp only
      rw [List.all_eq_true]
      intro d hd
      rw [sortFullByX] at hd
      have hd' := List.mem_mergeSort.mp hd
      rcases mem_appendCurrentLoop lx _ _ d hd' with h' | h'
      · exact decide_eq_true (noStale_spec s hns lx hlx d (List.drop_subset _ _ h'))
      · exact decide_eq_true h'

theorem applyAction_modeInv (st : Store) (a : UpdateDataAction)
    (h : ∀ p ∈ st, p.2.config.timestampMethod = .headerStamp → seriesInv p.2) :
    ∀ p ∈ applyAction st a,
      p.2.config.timestampMethod = .headerStamp → seriesInv p.2 := by
  intro p hp
  cases a with
  | resetCurrent name =>
    rcases mem_modifySeries _ st name p hp with h' | ⟨q, hq, he⟩
    · exact h p h'
    · rw [he]
      intro hts
      exact seriesInv_resetCurrent q.2 (h q hq hts)
  | resetFull name =>
    rcases mem_modifySeries _ st name p hp with h' | ⟨q, hq, he⟩
    · exact h p h'
    · rw [he]
      intro hts
      exact seriesInv_resetFull q.2 (h q hq hts)
  | appendCurrent name items =>
    rcases mem_modifySeries _ st name p hp with h' | ⟨q, hq, he⟩
    · exact h p h'
    · rw [he]
      intro hts
      rw [appendCurrentOp_config] at hts
      exact seriesInv_appendCurrentOp q.2 items hts (h q hq hts)
  | appendFull name items =>
    rcases mem_modifySeries _ st name p hp with h' | ⟨q, hq, he⟩
    · exact h p h'
    · rw [he]
      intro hts
      rw [appendFullOp_config] at hts
      exact seriesInv_appendFullOp q.2 items hts (h q hq hts)

/-- C1 (amended): for every series ordered by header stamp (the mode in
which the builder re-sorts both buffers on append, keeping them x-sorted)
the invariant holds after every batch of `updateData` actions: both
buffers stay x-sorted and `current` never contains a point whose `x` is
≤ the last `x` of `full` — in particular, after `append-full` every
`current` entry with `x ≤ max(full.x)` has been removed.  Moreover (in
any mode) an `append-full` call never increases `current.length`.  In
receive-time mode the cross-buffer part of the invariant can fail when
live items arrive out of x order — see the counterexample. -/
theorem c1_full_current_no_overlap (st : Store) (acts : List UpdateDataAction)
    (hinv : ∀ p ∈ st, p.2.config.timestampMethod = .headerStamp → seriesInv p.2) :
    (∀ p ∈ updateData st acts,
      p.2.config.timestampMethod = .headerStamp → seriesInv p.2) ∧
    ∀ (s : Series) (items : List DataItem),
      (appendFullOp s items).current.length ≤ s.current.length := by
  refine ⟨?_, fun s items => appendFullOp_current_length_le s items⟩
  induction acts generalizing st with
  | nil => exact hinv
  | cons a rest ih =>
    rw [updateData_cons]
    exact ih _ (applyAction_modeInv st a hinv)

/-- Witness for C1 at a concrete header-stamp store and batch. -/
theorem c1_full_current_no_overlap_witness :
    (∀ p ∈ hsStore, p.2.config.timestampMethod = .headerStamp → seriesInv p.2) ∧
    ((∀ p ∈ updateData hsStore
        [.appendCurrent "/topic.value" [mkItem 7, mkItem 3],
          .appendFull "/topic.value" [mkItem 5]],
        p.2.config.timestampMethod = .headerStamp → seriesInv p.2) ∧
      ∀ (s : Series) (items : List DataItem),
        (appendFullOp s items).current.length ≤ s.current.length) :=
  ⟨by decide,
    c1_full_current_no_overlap hsStore
      [.appendCurrent "/topic.value" [mkItem 7, mkItem 3],
        .appendFull "/topic.value" [mkItem 5]]
      (by decide)⟩

/-- C1 counterexample to the claim as stated: in receive-time mode, live
items appended out of x order (`x = 2, 5, 1`) followed by
`append-full [x = 4]` leave `current = [x5, x1]` against
`full = [x4]` — the front-trim loop stops at `x = 5 > 4` and the stale
point `x = 1 ≤ 4` survives in `current`. -/
theorem c1_stale_current_counterexample :
    ((updateData rtStore c1Acts).lookup "/topic.value").map noStaleB = some false ∧
    ((updateData rtStore c1Acts).lookup "/topic.value").map
        (fun s => (s.current.map FullDatum.x, s.full.map FullDatum.x)) =
      some ([5, 1], [4]) := by
  constructor
  · decide
  · decide

theorem nodup_subset_length_le_dedup (l m : List ℚ) (hnd : l.Nodup)
    (hsub : ∀ q ∈ l, q ∈ m) : l.length ≤ m.dedup.length := by
  have h1 : l.toFinset.card = l.length := List.toFinset_card_of_nodup hnd
  have h2 : l.toFinset ⊆ m.toFinset := fun q hq =>
    List.mem_toFinset.mpr (hsub q (List.mem_toFinset.mp hq))
  have h3 := Finset.card_le_card h2
  rw [h1, List.card_toFinset] at h3
  exact h3

theorem scRun_props (ppx ppy width bxMin bxMax : ℚ) (pts : List DsPoint) :
    ∀ s : ScState, s.sparse.Nodup → s.downsampled.length = s.sparse.length →
      (scRun ppx ppy width bxMin bxMax s pts).sparse.Nodup ∧
      (scRun ppx ppy width bxMin bxMax s pts).downsampled.length =
        (scRun ppx ppy width bxMin bxMax s pts).sparse.length ∧
      ∀ q ∈ (scRun ppx ppy width bxMin bxMax s pts).sparse,
        q ∈ s.sparse ∨ q ∈ scCellsList ppx ppy width bxMin bxMax pts := by
  induction pts with
  | nil =>
    intro s hnd hlen
    exact ⟨hnd, hlen, fun q hq => Or.inl hq⟩
  | cons p rest ih =>
    intro s hnd hlen
    rw [scRun, scStep]
    rcases hcl : scClassify ppx ppy width bxMin bxMax p with _ | loc
    · obtain ⟨h1, h2, h3⟩ := ih s hnd hlen
      refine ⟨h1, h2, ?_⟩
      intro q hq
      rcases h3 q hq with h | h
      · exact Or.inl h
      · right
        rw [scCellsList, List.filterMap_cons_none hcl]
        exact h
    · rw [scStepK]
      by_cases hmem : loc ∈ s.sparse
      · rw [if_pos hmem]
        obtain ⟨h1, h2, h3⟩ := ih s hnd hlen
        refine ⟨h1, h2, ?_⟩
        intro q hq
        rcases h3 q hq with h | h
        · exact Or.inl h
        · right
          rw [scCellsList, List.filterMap_cons_some hcl]
          exact List.mem_cons_of_mem _ h
      · rw [if_neg hmem]
        have hnd' : (loc :: s.sparse).Nodup := List.nodup_cons.mpr ⟨hmem, hnd⟩
        have hlen' : (s.downsampled ++ [p.index]).length = (loc :: s.sparse).length := by
          simp [hlen]
        obtain ⟨h1, h2, h3⟩ := ih ⟨s.downsampled ++ [p.index], loc :: s.sparse⟩ hnd' hlen'
        refine ⟨h1, h2, ?_⟩
        intro q hq
        rcases h3 q hq with h | h
        · rcases List.mem_cons.mp h with rfl | h'
          · right
            rw [scCellsList, List.filterMap_cons_some hcl]
            exact List.mem_cons_self _ _
          · exact Or.inl h'
        · right
          rw [scCellsList, List.filterMap_cons_some hcl]
          exact List.mem_cons_of_mem _ h

theorem downsampleScatter_length_le (qts : List DsPoint) (w : DsView) :
    (downsampleScatter qts w).length ≤ (scCells qts w).length := by
  rw [downsampleScatter, scCells]
  obtain ⟨h1, h2, h3⟩ := scRun_props (ppxOf w) (ppyOf w) w.width w.boundsX.min w.boundsX.max
    qts ⟨[], []⟩ List.nodup_nil rfl
  rw [h2]
  refine nodup_subset_length_le_dedup _ _ h1 ?_
  intro q hq
  rcases h3 q hq with h | h
  · simp at h
  · exact h

theorem flushPushes_length_le (s : DsState) : (flushPushes s).length ≤ 3 := by
  rw [flushPushes]
  cases hm : s.intMin <;> cases hM : s.intMax <;> cases hl : s.intLast <;>
    simp only [hm, hM, hl] <;> first
      | (split_ifs <;> simp)
      | simp

theorem flushPushes_of_none (s : DsState) (h1 : s.intMin = none) (h2 : s.intMax = none)
    (h3 : s.intLast = none) : flushPushes s = [] := by
  rw [flushPushes, h1, h2, h3]
  simp

theorem classify_below (ppx ppy minX maxX : ℚ) (p : DsPoint)
    (h : classify ppx ppy minX maxX p = .below) : p.x < minX := by
  by_cases h1 : p.x < minX
  · exact h1
  · exfalso
    rw [classify, if_neg h1] at h
    by_cases h2 : maxX < p.x
    · rw [if_pos h2] at h
      exact PixKind.noConfusion h
    · rw [if_neg h2] at h
      exact PixKind.noConfusion h

theorem classify_above (ppx ppy minX maxX : ℚ) (p : DsPoint)
    (h : classify ppx ppy minX maxX p = .above) : ¬ p.x < minX ∧ maxX < p.x := by
  by_cases h1 : p.x < minX
  · rw [classify, if_pos h1] at h
    exact absurd h (by simp)
  · refine ⟨h1, ?_⟩
    by_cases h2 : maxX < p.x
    · exact h2
    · rw [classify, if_neg h1, if_neg h2] at h
      exact absurd h (by simp)

theorem classify_inWin (ppx ppy minX maxX : ℚ) (p : DsPoint) (cx cy : ℤ)
    (h : classify ppx ppy minX maxX p = .inWin cx cy) :
    ¬ p.x < minX ∧ ¬ maxX < p.x ∧ cx = jsTrunc (p.x * ppx) ∧ cy = jsTrunc (p.y * ppy) := by
  by_cases h1 : p.x < minX
  · rw [classify, if_pos h1] at h
    exact absurd h (by simp)
  · by_cases h2 : maxX < p.x
    · rw [classify, if_neg h1, if_pos h2] at h
      exact absurd h (by simp)
    · rw [classify, if_neg h1, if_neg h2] at h
      injection h with hx hy
      exact ⟨h1, h2, hx.symm, hy.symm⟩

theorem tsColsList_cons_in (ppx minX maxX : ℚ) (p : DsPoint) (rest : List DsPoint)
    (h1 : ¬ p.x < minX) (h2 : ¬ maxX < p.x) :
    tsColsList ppx minX maxX (p :: rest) =
      jsTrunc (p.x * ppx) :: tsColsList ppx minX maxX rest := by
  rw [tsColsList, tsColsList, List.filter_cons, if_pos (by simp [h1, h2]), List.map_cons]

theorem tsColsList_cons_below (ppx minX maxX : ℚ) (p : DsPoint) (rest : List DsPoint)
    (h1 : p.x < minX) :
    tsColsList ppx minX maxX (p :: rest) = tsColsList ppx minX maxX rest := by
  rw [tsColsList, tsColsList, List.filter_cons, if_neg (by simp [h1])]

theorem tsColsList_cons_above (ppx minX maxX : ℚ) (p : DsPoint) (rest : List DsPoint)
    (h2 : maxX < p.x) :
    tsColsList ppx minX maxX (p :: rest) = tsColsList ppx minX maxX rest := by
  rw [tsColsList, tsColsList, List.filter_cons, if_neg (by simp [h2])]

theorem labelBreak_false_of_label_none (s : DsState) (lbl : Option String)
    (l : IntervalItem) (h : s.intLast = some l) (hl : l.label = none) :
    labelBreak s lbl = false := by
  rw [labelBreak, h]
  dsimp only
  rw [hl]
  simp

theorem stepK_below (s : DsState) (idx : ℕ) (lbl : Option String) :
    stepK s .below idx lbl =
      { s with downsampled :=
          match s.downsampled with
          | [] => [idx]
          | _ :: rest => idx :: rest } := rfl

theorem stepK_above (s : DsState) (idx : ℕ) (lbl : Option String) :
    stepK s .above idx lbl = { s with firstPastBounds := some idx } := rfl

theorem stepK_inWin (s : DsState) (idx : ℕ) (lbl : Option String) (x y : ℤ) :
    stepK s (.inWin x y) idx lbl =
      if s.intFirst.map IntervalItem.xPixel ≠ some x ∨ labelBreak s lbl = true then
        ⟨s.downsampled ++ flushPushes s ++ [idx], some ⟨x, y, lbl, idx⟩,
          some ⟨x, y, lbl, idx⟩, some ⟨x, y, lbl, idx⟩, some ⟨x, y, lbl, idx⟩,
          s.firstPastBounds⟩
      else
        { s with
          intLast := some (match s.intLast with
            | none => ⟨x, y, lbl, idx⟩
            | some l => { l with xPixel := x, yPixel := y })
          intMin := match s.intMin with
            | none => none
            | some m => if y < m.yPixel then some { m with yPixel := y, index := idx } else some m
          intMax := match s.intMax with
            | none => none
            | some m =>
              if m.yPixel < y then some { m with yPixel := y, index := idx } else some m } := rfl

theorem stepK_else_intFirst (s : DsState) (cx cy : ℤ) (idx : ℕ) (lbl : Option String)
    (hcond : ¬(s.intFirst.map IntervalItem.xPixel ≠ some cx ∨ labelBreak s lbl = true)) :
    (stepK s (.inWin cx cy) idx lbl).intFirst = s.intFirst := by
  rw [stepK_inWin, if_neg hcond]

theorem DsInv_stepK_else (s : DsState) (cols : Finset ℤ) (f l : IntervalItem)
    (cx cy : ℤ) (idx : ℕ) (lbl : Option String)
    (hf : s.intFirst = some f) (hl : s.intLast = some l) (hllbl : l.label = none)
    (hcond : ¬(s.intFirst.map IntervalItem.xPixel ≠ some cx ∨ labelBreak s lbl = true))
    (hinv : DsInv s cols) :
    DsInv (stepK s (.inWin cx cy) idx lbl) cols := by
  rw [stepK_inWin, if_neg hcond]
  obtain ⟨hn, hs⟩ := hinv
  obtain ⟨hne, hlen, hmem, hmax, l2, hl2, hlbl2⟩ := hs f hf
  constructor
  · intro h
    have h' : s.intFirst = none := h
    rw [hf] at h'
    exact Option.noConfusion h'
  · intro f' hf'
    have h' : s.intFirst = some f' := hf'
    rw [hf] at h'
    have hff : f' = f := (Option.some.inj h').symm
    subst hff
    refine ⟨hne, hlen, hmem, hmax, ?_⟩
    refine ⟨{ l with xPixel := cx, yPixel := cy }, ?_, hllbl⟩
    show some (match s.intLast with
      | none => (⟨cx, cy, lbl, idx⟩ : IntervalItem)
      | some l' => { l' with xPixel := cx, yPixel := cy }) =
        some { l with xPixel := cx, yPixel := cy }
    rw [hl]

theorem dsRun_inv (ppx ppy minX maxX : ℚ) (hppx : 0 ≤ ppx) (pts : List DsPoint) :
    ∀ (s : DsState) (cols : Finset ℤ),
      pts.Pairwise (fun a b => a.x ≤ b.x) →
      (∀ p ∈ pts, p.label = none) →
      DsInv s cols →
      (∀ f, s.intFirst = some f → ∀ p ∈ pts,
        ¬ p.x < minX → ¬ maxX < p.x → f.xPixel ≤ jsTrunc (p.x * ppx)) →
      ∃ cols' : Finset ℤ,
        (∀ c ∈ cols', c ∈ cols ∨ c ∈ tsColsList ppx minX maxX pts) ∧
        DsInv (dsRun ppx ppy minX maxX s pts) cols' := by
  induction pts with
  | nil =>
    intro s cols _ _ hinv _
    exact ⟨cols, fun c hc => Or.inl hc, hinv⟩
  | cons p rest ih =>
    intro s cols hsort hlbl hinv hnext
    have hsort' := List.Pairwise.of_cons hsort
    have hlbl' : ∀ q ∈ rest, q.label = none :=
      fun q hq => hlbl q (List.mem_cons_of_mem _ hq)
    have hplbl : p.label = none := hlbl p (List.mem_cons_self _ _)
    have hrel : ∀ q ∈ rest, p.x ≤ q.x := fun q hq => List.rel_of_pairwise_cons hsort hq
    obtain ⟨hn, hs⟩ := hinv
    rw [dsRun, dsStep]
    rcases hcl : classify ppx ppy minX maxX p with _ | _ | ⟨cx, cy⟩
    · -- datum below the window: keep it at output position 0
      have hb := classify_below ppx ppy minX maxX p hcl
      rw [stepK_below]
      have hinv' : DsInv { s with downsampled :=
          match s.downsampled with
          | [] => [p.index]
          | _ :: rest' => p.index :: rest' } cols := by
        constructor
        · intro hf
          obtain ⟨hc0, hl1, hl2, hl3, hl4⟩ := hn hf
          refine ⟨hc0, ?_, hl2, hl3, hl4⟩
          rcases hds : s.downsampled with _ | ⟨a, tl⟩
          · simp
          · rw [hds] at hl1
            simpa using hl1
        · intro f hf
          obtain ⟨hne, hlen, hmem, hmax, hlast⟩ := hs f hf
          rcases hds : s.downsampled with _ | ⟨a, tl⟩
          · exact absurd hds hne
          · rw [hds] at hlen
            refine ⟨by simp, ?_, hmem, hmax, hlast⟩
            simpa using hlen
      obtain ⟨cols', hmem', hinv''⟩ := ih _ cols hsort' hlbl' hinv'
        (fun f hf q hq hq1 hq2 => hnext f hf q (List.mem_cons_of_mem _ hq) hq1 hq2)
      refine ⟨cols', ?_, hinv''⟩
      intro c hc
      rcases hmem' c hc with h | h
      · exact Or.inl h
      · right
        rw [tsColsList_cons_below ppx minX maxX p rest hb]
        exact h
    · -- datum above the window: only firstPastBounds changes
      obtain ⟨h1, h2⟩ := classify_above ppx ppy minX maxX p hcl
      rw [stepK_above]
      obtain ⟨cols', hmem', hinv''⟩ :=
        ih { s with firstPastBounds := some p.index } cols hsort' hlbl' ⟨hn, hs⟩
          (fun f hf q hq hq1 hq2 => hnext f hf q (List.mem_cons_of_mem _ hq) hq1 hq2)
      refine ⟨cols', ?_, hinv''⟩
      intro c hc
      rcases hmem' c hc with h | h
      · exact Or.inl h
      · right
        rw [tsColsList_cons_above ppx minX maxX p rest h2]
        exact h
    · -- datum inside the window
      obtain ⟨h1, h2, hcx, hcy⟩ := classify_inWin ppx ppy minX maxX p cx cy hcl
      rcases Option.eq_none_or_eq_some s.intFirst with hf | ⟨f, hf⟩
      · -- first interval opens
        obtain ⟨hc0, hlen0, hl2, hl3, hl4⟩ := hn hf
        have hcond : s.intFirst.map IntervalItem.xPixel ≠ some cx ∨
            labelBreak s p.label = true := by
          left
          rw [hf]
          simp
        rw [stepK_inWin, if_pos hcond]
        have hflush : flushPushes s = [] := flushPushes_of_none s hl3 hl4 hl2
        have hinv1 : DsInv ⟨s.downsampled ++ flushPushes s ++ [p.index],
            some ⟨cx, cy, p.label, p.index⟩, some ⟨cx, cy, p.label, p.index⟩,
            some ⟨cx, cy, p.label, p.index⟩, some ⟨cx, cy, p.label, p.index⟩,
            s.firstPastBounds⟩ {cx} := by
          constructor
          · intro hf'
            exact absurd hf' (by simp)
          · intro f' hf'
            have hf'' : f' = ⟨cx, cy, p.label, p.index⟩ := (Option.some.inj hf').symm
            subst hf''
            refine ⟨by simp, ?_, Finset.mem_singleton_self _, ?_, ⟨_, rfl, hplbl⟩⟩
            · rw [hflush]
              have hlen1 : s.downsampled.length ≤ 1 := hlen0
              simp only [List.append_nil, List.length_append, List.length_cons,
                List.length_nil, Finset.card_singleton]
              omega
            · intro c hc
              rw [Finset.mem_singleton.mp hc]
        obtain ⟨cols', hmem', hinv''⟩ := ih _ {cx} hsort' hlbl' hinv1 (by
          intro f' hf' q hq hq1 hq2
          have hf'' : f' = ⟨cx, cy, p.label, p.index⟩ := (Option.some.inj hf').symm
          subst hf''
          show cx ≤ jsTrunc (q.x * ppx)
          rw [hcx]
          exact jsTrunc_mono (mul_le_mul_of_nonneg_right (hrel q hq) hppx))
        refine ⟨cols', ?_, hinv''⟩
        intro c hc
        rcases hmem' c hc with h | h
        · right
          rw [tsColsList_cons_in ppx minX maxX p rest h1 h2]
          rw [Finset.mem_singleton.mp h, hcx]
          exact List.mem_cons_self _ _
        · right
          rw [tsColsList_cons_in ppx minX maxX p rest h1 h2]
          exact List.mem_cons_of_mem _ h
      · -- an interval is open
        obtain ⟨hne, hlen, hmemf, hmax, l, hl, hllbl⟩ := hs f hf
        have hlb : labelBreak s p.label = false :=
          labelBreak_false_of_label_none s p.label l hl hllbl
        have hle : f.xPixel ≤ cx := by
          rw [hcx]
          exact hnext f hf p (List.mem_cons_self _ _) h1 h2
        by_cases hceq : cx = f.xPixel
        · -- same pixel column: update the interval trackers only
          have hcond : ¬(s.intFirst.map IntervalItem.xPixel ≠ some cx ∨
              labelBreak s p.label = true) := by
            rw [hf, hlb]
            simp [hceq]
          obtain ⟨cols', hmem', hinv''⟩ :=
            ih (stepK s (.inWin cx cy) p.index p.label) cols hsort' hlbl'
              (DsInv_stepK_else s cols f l cx cy p.index p.label hf hl hllbl hcond ⟨hn, hs⟩)
              (by
                intro f' hf' q hq hq1 hq2
                rw [stepK_else_intFirst s cx cy p.index p.label hcond] at hf'
                rw [hf] at hf'
                have hff : f' = f := (Option.some.inj hf').symm
                subst hff
                exact hnext f' hf q (List.mem_cons_of_mem _ hq) hq1 hq2)
          refine ⟨cols', ?_, hinv''⟩
          intro c hc
          rcases hmem' c hc with h | h
          · exact Or.inl h
          · right
            rw [tsColsList_cons_in ppx minX maxX p rest h1 h2]
            exact List.mem_cons_of_mem _ h
        · -- new pixel column: close the interval and open a new one
          have hcond : s.intFirst.map IntervalItem.xPixel ≠ some cx ∨
              labelBreak s p.label = true := by
            left
            rw [hf]
            simp only [Option.map_some', ne_eq, Option.some.injEq]
            exact fun h => hceq h.symm
          rw [stepK_inWin, if_pos hcond]
          have hlt : f.xPixel < cx := lt_of_le_of_ne hle (fun h => hceq h.symm)
          have hnotmem : cx ∉ cols := fun hmm => absurd (hmax cx hmm) (not_le.mpr hlt)
          have hcard : (insert cx cols).card = cols.card + 1 :=
            Finset.card_insert_of_not_mem hnotmem
          have hinv1 : DsInv ⟨s.downsampled ++ flushPushes s ++ [p.index],
              some ⟨cx, cy, p.label, p.index⟩, some ⟨cx, cy, p.label, p.index⟩,
              some ⟨cx, cy, p.label, p.index⟩, some ⟨cx, cy, p.label, p.index⟩,
              s.firstPastBounds⟩ (insert cx cols) := by
            constructor
            · intro hf'
              exact absurd hf' (by simp)
            · intro f' hf'
              have hf'' : f' = ⟨cx, cy, p.label, p.index⟩ := (Option.some.inj hf').symm
              subst hf''
              refine ⟨by simp, ?_, Finset.mem_insert_self _ _, ?_, ⟨_, rfl, hplbl⟩⟩
              · have hfl := flushPushes_length_le s
                rw [hcard]
                simp only [List.length_append, List.length_cons, List.length_nil]
                omega
              · intro c hc
                rcases Finset.mem_insert.mp hc with rfl | hc'
                · exact le_refl _
                · exact le_of_lt (lt_of_le_of_lt (hmax c hc') hlt)
          obtain ⟨cols', hmem', hinv''⟩ := ih _ (insert cx cols) hsort' hlbl' hinv1 (by
            intro f' hf' q hq hq1 hq2
            have hf'' : f' = ⟨cx, cy, p.label, p.index⟩ := (Option.some.inj hf').symm
            subst hf''
            show cx ≤ jsTrunc (q.x * ppx)
            rw [hcx]
            exact jsTrunc_mono (mul_le_mul_of_nonneg_right (hrel q hq) hppx))
          refine ⟨cols', ?_, hinv''⟩
          intro c hc
          rcases hmem' c hc with h | h
          · rcases Finset.mem_insert.mp h with rfl | hc'
            · right
              rw [tsColsList_cons_in ppx minX maxX p rest h1 h2, hcx]
              exact List.mem_cons_self _ _
            · exact Or.inl hc'
          · right
            rw [tsColsList_cons_in ppx minX maxX p rest h1 h2]
            exact List.mem_cons_of_mem _ h

theorem dsFinish_length_le (s : DsState) :
    (dsFinish s).length ≤ s.downsampled.length + (flushPushes s).length + 1 := by
  simp only [dsFinish]
  cases hfp : s.firstPastBounds with
  | none =>
    dsimp only
    simp only [List.length_append]
    omega
  | some i =>
    dsimp only
    by_cases hi : i ≠ 0
    · rw [if_pos hi]
      simp only [List.length_append, List.length_cons, List.length_nil]
      omega
    · rw [if_neg hi]
      simp only [List.length_append]
      omega

theorem downsampleTimeseries_length_bound (pts : List DsPoint) (v : DsView)
    (hsort : pts.Pairwise fun a b => a.x ≤ b.x)
    (hlbl : ∀ p ∈ pts, p.label = none)
    (hrange : 0 < v.boundsX.max - v.boundsX.min)
    (hw : 0 ≤ v.width) :
    (downsampleTimeseries pts v).length ≤ 4 * (tsColumns pts v).length + 2 := by
  have hppx : 0 ≤ ppxOf v := by
    rw [ppxOf]
    exact div_nonneg hw (le_of_lt hrange)
  obtain ⟨cols', hmem', hinv⟩ := dsRun_inv (ppxOf v) (ppyOf v) (minXOf v) (maxXOf v)
    hppx pts initDsState ∅ hsort hlbl
    ⟨fun _ => ⟨rfl, by simp [initDsState], rfl, rfl, rfl⟩,
     fun f hf => by simp [initDsState] at hf⟩
    (fun f hf => by simp [initDsState] at hf)
  obtain ⟨hn, hs⟩ := hinv
  rw [downsampleTimeseries]
  set t := dsRun (ppxOf v) (ppyOf v) (minXOf v) (maxXOf v) initDsState pts with ht
  have hfin := dsFinish_length_le t
  have hflush := flushPushes_length_le t
  have hcols : cols'.card ≤ (tsColumns pts v).length := by
    have hsub : cols' ⊆ (tsColsList (ppxOf v) (minXOf v) (maxXOf v) pts).toFinset := by
      intro c hc
      rcases hmem' c hc with h | h
      · exact absurd h (Finset.not_mem_empty c)
      · exact List.mem_toFinset.mpr h
    have h2 := Finset.card_le_card hsub
    rw [List.card_toFinset] at h2
    rw [tsColumns]
    exact h2
  rcases Option.eq_none_or_eq_some t.intFirst with hF | ⟨f, hF⟩
  · obtain ⟨hc0, hl1, hl2, hl3, hl4⟩ := hn hF
    have hfl0 : flushPushes t = [] := flushPushes_of_none t hl3 hl4 hl2
    rw [hfl0] at hfin
    simp only [List.length_nil] at hfin
    omega
  · obtain ⟨_, hlen, _, _, _⟩ := hs f hF
    omega

theorem tsColumns_length_lt (pts : List DsPoint) (v : DsView)
    (hrange : 0 < v.boundsX.max - v.boundsX.min)
    (hw : 0 ≤ v.width) :
    ((tsColumns pts v).length : ℚ) < 2 * v.width + 3 := by
  have hppx : 0 ≤ ppxOf v := by
    rw [ppxOf]
    exact div_nonneg hw (le_of_lt hrange)
  have hA := sub_one_lt_jsTrunc (minXOf v * ppxOf v)
  have hB := jsTrunc_lt_add_one (maxXOf v * ppxOf v)
  have hr : v.boundsX.max - v.boundsX.min ≠ 0 := ne_of_gt hrange
  have hcancel : (v.boundsX.max - v.boundsX.min) *
      (v.width / (v.boundsX.max - v.boundsX.min)) = v.width := by
    rw [(mul_div_assoc (v.boundsX.max - v.boundsX.min) v.width
        (v.boundsX.max - v.boundsX.min)).symm]
    exact mul_div_cancel_left₀ v.width hr
  have hspan : maxXOf v * ppxOf v - minXOf v * ppxOf v = 2 * v.width := by
    have h1 : maxXOf v * ppxOf v - minXOf v * ppxOf v =
        2 * ((v.boundsX.max - v.boundsX.min) *
          (v.width / (v.boundsX.max - v.boundsX.min))) := by
      rw [maxXOf, minXOf, ppxOf]
      ring
    rw [h1, hcancel]
  have hbound : ∀ c ∈ tsColumns pts v,
      jsTrunc (minXOf v * ppxOf v) ≤ c ∧ c ≤ jsTrunc (maxXOf v * ppxOf v) := by
    intro c hc
    rw [tsColumns] at hc
    have hc' := List.mem_dedup.mp hc
    rw [tsColsList] at hc'
    obtain ⟨p, hp, hpc⟩ := List.mem_map.mp hc'
    obtain ⟨hpmem, hpf⟩ := List.mem_filter.mp hp
    simp only [Bool.and_eq_true, decide_eq_true_eq] at hpf
    obtain ⟨hp1, hp2⟩ := hpf
    subst hpc
    constructor
    · exact jsTrunc_mono (mul_le_mul_of_nonneg_right (not_lt.mp hp1) hppx)
    · exact jsTrunc_mono (mul_le_mul_of_nonneg_right (not_lt.mp hp2) hppx)
  have hnd : (tsColumns pts v).Nodup := by
    rw [tsColumns]
    exact List.nodup_dedup _
  have hsubF : (tsColumns pts v).toFinset ⊆
      Finset.Icc (jsTrunc (minXOf v * ppxOf v)) (jsTrunc (maxXOf v * ppxOf v)) := by
    intro c hc
    obtain ⟨h1, h2⟩ := hbound c (List.mem_toFinset.mp hc)
    exact Finset.mem_Icc.mpr ⟨h1, h2⟩
  have hlenle : (tsColumns pts v).length ≤
      (jsTrunc (maxXOf v * ppxOf v) + 1 - jsTrunc (minXOf v * ppxOf v)).toNat := by
    have h1 : (tsColumns pts v).toFinset.card = (tsColumns pts v).length :=
      List.toFinset_card_of_nodup hnd
    have h2 := Finset.card_le_card hsubF
    rw [h1, Int.card_Icc] at h2
    exact h2
  rcases le_or_lt (jsTrunc (maxXOf v * ppxOf v) + 1 - jsTrunc (minXOf v * ppxOf v)) 0
    with hz | hz
  · have hzero : (jsTrunc (maxXOf v * ppxOf v) + 1 -
        jsTrunc (minXOf v * ppxOf v)).toNat = 0 := Int.toNat_of_nonpos hz
    rw [hzero, Nat.le_zero] at hlenle
    rw [hlenle]
    push_cast
    linarith
  · have htn : ((jsTrunc (maxXOf v * ppxOf v) + 1 -
        jsTrunc (minXOf v * ppxOf v)).toNat : ℤ) =
        jsTrunc (maxXOf v * ppxOf v) + 1 - jsTrunc (minXOf v * ppxOf v) :=
      Int.toNat_of_nonneg (le_of_lt hz)
    have hq1 : ((tsColumns pts v).length : ℤ) ≤
        jsTrunc (maxXOf v * ppxOf v) + 1 - jsTrunc (minXOf v * ppxOf v) := by
      rw [← htn]
      exact_mod_cast hlenle
    have hq2 : ((tsColumns pts v).length : ℚ) ≤
        (jsTrunc (maxXOf v * ppxOf v) : ℚ) + 1 - (jsTrunc (minXOf v * ppxOf v) : ℚ) := by
      exact_mod_cast hq1
    linarith

/-- C3: for x-sorted, label-free input and a viewport with positive x-range
and non-negative width, the timeseries downsampler returns at most
`4 * D + 2` indices where `D` is the number of occupied pixel columns, and
`D < 2 * width + 3`, so the output is bounded by the pixel width
independently of the input length; the scatter downsampler's output is
bounded by the number of distinct occupied pixel cells, independently of
the input length. -/
theorem c3_downsample_output_bounded (pts : List DsPoint) (v : DsView)
    (hsort : pts.Pairwise fun a b => a.x ≤ b.x)
    (hlbl : ∀ p ∈ pts, p.label = none)
    (hrange : 0 < v.boundsX.max - v.boundsX.min)
    (hw : 0 ≤ v.width) :
    ((downsampleTimeseries pts v).length ≤ 4 * (tsColumns pts v).length + 2 ∧
      ((tsColumns pts v).length : ℚ) < 2 * v.width + 3) ∧
    ∀ (qts : List DsPoint) (w : DsView),
      (downsampleScatter qts w).length ≤ (scCells qts w).length :=
  ⟨⟨downsampleTimeseries_length_bound pts v hsort hlbl hrange hw,
    tsColumns_length_lt pts v hrange hw⟩,
   fun qts w => downsampleScatter_length_le qts w⟩

theorem c3_downsample_output_bounded_witness :
    (List.Pairwise (fun a b => a.x ≤ b.x) c3SortedPoints ∧
      (∀ p ∈ c3SortedPoints, p.label = none) ∧
      0 < c3SortedView.boundsX.max - c3SortedView.boundsX.min ∧
      0 ≤ c3SortedView.width) ∧
    (((downsampleTimeseries c3SortedPoints c3SortedView).length ≤
        4 * (tsColumns c3SortedPoints c3SortedView).length + 2 ∧
      ((tsColumns c3SortedPoints c3SortedView).length : ℚ) <
        2 * c3SortedView.width + 3) ∧
     ∀ (qts : List DsPoint) (w : DsView),
       (downsampleScatter qts w).length ≤ (scCells qts w).length) :=
  ⟨⟨by decide, by decide, by norm_num [c3SortedView], by decide⟩,
   c3_downsample_output_bounded c3SortedPoints c3SortedView
     (by decide) (by decide) (by norm_num [c3SortedView]) (by decide)⟩

theorem c3_label_break_unbounded_counterexample :
    downsampleTimeseries c3LabeledPoints c3View = [0, 1, 2, 3, 4, 5, 6, 7] ∧
    tsColumns c3LabeledPoints c3View = [0] ∧
    ¬ ((downsampleTimeseries c3LabeledPoints c3View).length ≤
        4 * (tsColumns c3LabeledPoints c3View).length + 2) := by
  have hds : downsampleTimeseries c3LabeledPoints c3View = [0, 1, 2, 3, 4, 5, 6, 7] := by
    rw [downsampleTimeseries_eq_pix]
    have hmap : c3LabeledPoints.map (fun p =>
        (classify (ppxOf c3View) (ppyOf c3View) (minXOf c3View) (maxXOf c3View) p,
          p.index, p.label)) =
        [(.inWin 0 0, 0, some "a"), (.inWin 0 0, 1, some "b"), (.inWin 0 0, 2, some "a"),
         (.inWin 0 0, 3, some "b"), (.inWin 0 0, 4, some "a"), (.inWin 0 0, 5, some "b"),
         (.inWin 0 0, 6, some "a"), (.inWin 0 0, 7, some "b")] := by
      norm_num [c3LabeledPoints, c3View, classify, ppxOf, ppyOf, minXOf, maxXOf, jsTrunc]
    rw [hmap]
    decide
  have hcols : tsColumns c3LabeledPoints c3View = [0] := by
    have h : tsColsList (ppxOf c3View) (minXOf c3View) (maxXOf c3View) c3LabeledPoints =
        [0, 0, 0, 0, 0, 0, 0, 0] := by
      norm_num [c3LabeledPoints, c3View, tsColsList, ppxOf, minXOf, maxXOf, jsTrunc]
    rw [tsColumns, h]
    decide
  exact ⟨hds, hcols, by rw [hds, hcols]; decide⟩

end Plot
